import Mathlib

/-!
Verification of the ClearNode event pipeline: a shallow embedding of
`ChannelEventStore` (runtime/ChannelEventStore.ts), `ClearNodeEventRepository`
(persistence/ClearNodeEventRepository.ts), the auth-verify handling of
`ClearNodeWebSocketClient` (core/ClearNodeWebSocketClient.ts) and the
push-stream endpoint of `ApiServer` (server/ApiServer.ts).

Modelling conventions:
* Timestamps (`new Date()` / `Date.now()` / ISO strings in the database) are
  natural numbers.  The store assigns ingestion timestamps from a strictly
  increasing counter threaded through the state (`clock`), which models the
  wall clock read at each `new Date()` call; ISO-8601 strings of a fixed
  format compare lexicographically exactly as the underlying instants do, so
  SQL comparisons on `occurred_at` become `Nat` comparisons.
* A JS `Map` is an association list in insertion order; `Map.set` replaces in
  place when the key exists and appends otherwise, and `Map.values()` is the
  list itself.
* `randomUUID()` is a fresh-identifier counter (`nextUuid`); identifiers are
  the disjoint sum of channel keys and generated uuids.
* Serialized payload columns (`JSON.stringify` output) are modelled
  structurally; a `corrupt` payload stands for stored text that
  `JSON.parse` rejects.
-/

namespace ClearNode

/-- Value of one field of an inbound update object: a string, or anything
else (the code only distinguishes strings). -/
inductive FieldVal
  | fstr (s : String)
  | fother
deriving DecidableEq

/-- An `RPCChannelUpdate` payload as far as the store inspects it: either not
an object, or an object with named fields. -/
inductive ChannelUpdate
  | notObj
  | obj (fields : List (String × FieldVal))
deriving DecidableEq

/-- An `RPCBalance` record; fully opaque to the store. -/
structure Balance where
  val : Nat
deriving DecidableEq

/-- First-match field lookup, as JS property access on our object model. -/
def lookupField : List (String × FieldVal) → String → Option FieldVal
  | [], _ => none
  | (k, v) :: rest, key => if k = key then some v else lookupField rest key

/-- Embeds `normaliseChannelId`: prefer a string-typed `channelId`, then
`channel_id`, then `id`; otherwise `"unknown"`. -/
def normaliseChannelId : ChannelUpdate → String
  | .notObj => "unknown"
  | .obj fs =>
    match lookupField fs "channelId" with
    | some (.fstr s) => s
    | _ =>
      match lookupField fs "channel_id" with
      | some (.fstr s) => s
      | _ =>
        match lookupField fs "id" with
        | some (.fstr s) => s
        | _ => "unknown"

/-- Identifier of a stored entry: a channel key (single updates) or a
generated uuid (batch / balance entries). -/
inductive EntryId
  | chan (key : String)
  | uuid (n : Nat)
deriving DecidableEq

/-- Embeds the `Timestamped<T>` record of ChannelEventStore.ts. -/
structure Timestamped (α : Type) where
  id : EntryId
  updatedAt : Nat
  payload : α
deriving DecidableEq

/-- JS `Map.set` on a map represented as its `values()` list in insertion
order: replace in place if the key is present, else append. -/
def mapSet {α : Type} (m : List (Timestamped α)) (e : Timestamped α) :
    List (Timestamped α) :=
  if m.any (fun x => x.id = e.id) then
    m.map (fun x => if x.id = e.id then e else x)
  else m ++ [e]

/-- The `MAX_ENTRIES` constant of ChannelEventStore.ts. -/
def MAX_ENTRIES : Nat := 100

/-- Stable insertion of `a` into a descending-sorted list: `a` goes before
the first element whose measure does not exceed `a`'s. -/
def insertByDesc {α : Type} (f : α → Nat) (a : α) : List α → List α
  | [] => [a]
  | b :: t => if f b ≤ f a then a :: b :: t else b :: insertByDesc f a t

/-- A stable comparator sort, descending by the measure `f`.  This models
`Array.prototype.sort` / SQL `ORDER BY ... DESC` under a
`(a, b) => f(b) - f(a)` comparator; no claim below depends on the order of
tied elements. -/
def sortDescBy {α : Type} (f : α → Nat) : List α → List α
  | [] => []
  | a :: t => insertByDesc f a (sortDescBy f t)

/-- `Array.from(values).sort((a, b) => b.updatedAt.getTime() -
a.updatedAt.getTime())`: newest first by store-assigned timestamp. -/
def sortByNewest {α : Type} (l : List (Timestamped α)) : List (Timestamped α) :=
  sortDescBy (fun e => e.updatedAt) l

/-- Embeds `ChannelEventStore.trimMap`: when over `MAX_ENTRIES`, clear the map
and re-insert the `MAX_ENTRIES` newest entries in newest-first order. -/
def trimMap (m : List (Timestamped ChannelUpdate)) :
    List (Timestamped ChannelUpdate) :=
  if m.length ≤ MAX_ENTRIES then m
  else ((sortByNewest m).take MAX_ENTRIES).foldl mapSet []

/-- Embeds `ChannelEventStore.trimArray`: truncate to the first
`MAX_ENTRIES` entries (`entries.length = MAX_ENTRIES`). -/
def trimArray {α : Type} (l : List (Timestamped α)) : List (Timestamped α) :=
  if l.length ≤ MAX_ENTRIES then l else l.take MAX_ENTRIES

/-- The `type` column of a persisted row. -/
inductive RowType
  | channel
  | channels
  | balance
deriving DecidableEq

/-- A serialized `payload` column value.  The first three constructors are
`JSON.stringify` images of the three payload shapes the store writes; `corrupt`
is stored text on which `JSON.parse` throws. -/
inductive PersistedPayload
  | pchannel (u : ChannelUpdate)
  | pchannels (us : List ChannelUpdate)
  | pbalances (bs : List Balance)
  | corrupt (tag : Nat)
deriving DecidableEq

/-- `JSON.parse(payload) as RPCChannelUpdate` on a row the store wrote as a
single-channel payload; fails exactly on text `JSON.parse` rejects. -/
def PersistedPayload.asChannel : PersistedPayload → Option ChannelUpdate
  | .pchannel u => some u
  | _ => none

/-- `JSON.parse(payload) as RPCChannelUpdate[]` for batch rows. -/
def PersistedPayload.asChannels : PersistedPayload → Option (List ChannelUpdate)
  | .pchannels us => some us
  | _ => none

/-- `JSON.parse(payload) as RPCBalance[]` for balance rows. -/
def PersistedPayload.asBalances : PersistedPayload → Option (List Balance)
  | .pbalances bs => some bs
  | _ => none

/-- Embeds the `ChannelEventRow` record of ClearNodeEventRepository.ts. -/
structure ChannelEventRow where
  id : EntryId
  rtype : RowType
  payload : PersistedPayload
  occurredAt : Nat
  channelId : Option String
deriving DecidableEq

/-- Embeds the `PersistedSnapshot` record returned by `fetchSnapshot`. -/
structure PersistedSnapshot where
  channels : List ChannelEventRow
  batches : List ChannelEventRow
  balances : List ChannelEventRow
deriving DecidableEq

/-- State of a `ClearNodeEventRepository`: the `clearnode_events` table plus
its configuration.  `failing` models a repository whose `persist` always
throws (e.g. the database file has become unwritable). -/
structure RepoState where
  rows : List ChannelEventRow
  maxRows : Nat
  retentionMs : Nat
  failing : Bool
deriving DecidableEq

/-- `ORDER BY occurred_at DESC` on rows. -/
def sortRowsDesc (l : List ChannelEventRow) : List ChannelEventRow :=
  sortDescBy (fun x => x.occurredAt) l

/-- `INSERT OR REPLACE` keyed by the `id` primary key. -/
def repoUpsert (rows : List ChannelEventRow) (r : ChannelEventRow) :
    List ChannelEventRow :=
  (rows.filter (fun x => ¬ x.id = r.id)) ++ [r]

/-- Embeds `ClearNodeEventRepository.trim`, faithfully including its use of
`ORDER BY occurred_at DESC LIMIT 1 OFFSET (count - maxRows)` to pick the
row-count threshold, followed by the age-based `DELETE` when
`retentionMs > 0`.  `now` is `Date.now()` at trim time. -/
def repoTrim (r : RepoState) (now : Nat) : RepoState :=
  let afterCount :=
    if r.maxRows < r.rows.length then
      let offset := r.rows.length - r.maxRows
      match (sortRowsDesc r.rows)[offset]? with
      | some thresholdRow =>
          r.rows.filter (fun x => ¬ x.occurredAt < thresholdRow.occurredAt)
      | none => r.rows
    else r.rows
  let afterAge :=
    if 0 < r.retentionMs then
      afterCount.filter (fun x => now ≤ x.occurredAt + r.retentionMs)
    else afterCount
  { r with rows := afterAge }

/-- Embeds `ClearNodeEventRepository.persist`: upsert every row in one
transaction, then trim. -/
def repoPersist (r : RepoState) (now : Nat) (events : List ChannelEventRow) :
    RepoState :=
  repoTrim { r with rows := events.foldl repoUpsert r.rows } now

/-- `SELECT ... WHERE type = t ORDER BY occurred_at DESC LIMIT limit`. -/
def fetchLatest (rows : List ChannelEventRow) (t : RowType) (limit : Nat) :
    List ChannelEventRow :=
  (sortRowsDesc (rows.filter (fun x => x.rtype = t))).take limit

/-- Embeds `ClearNodeEventRepository.fetchSnapshot` (default limit 100). -/
def fetchSnapshot (r : RepoState) (limit : Nat) : PersistedSnapshot :=
  { channels := fetchLatest r.rows .channel limit
    batches := fetchLatest r.rows .channels limit
    balances := fetchLatest r.rows .balance limit }

/-- Embeds `ClearNodeEventRepository.fetchChannelHistory`. -/
def fetchChannelHistory (r : RepoState) (channelId : String) (limit : Nat) :
    List ChannelEventRow :=
  (sortRowsDesc (r.rows.filter (fun x => x.channelId = some channelId))).take
    limit

/-- Embeds the `ChannelEventsSnapshot` record. -/
structure ChannelEventsSnapshot where
  channels : List (Timestamped ChannelUpdate)
  batches : List (Timestamped (List ChannelUpdate))
  balances : List (Timestamped (List Balance))
deriving DecidableEq

/-- Embeds the `ChannelEventStoreUpdate` union passed to subscribers. -/
inductive StoreUpdate
  | channel (channelId : String) (occurredAt : Nat) (snapshot : ChannelEventsSnapshot)
  | channels (count : Nat) (occurredAt : Nat) (snapshot : ChannelEventsSnapshot)
  | balance (count : Nat) (occurredAt : Nat) (snapshot : ChannelEventsSnapshot)
deriving DecidableEq

/-- The `type` discriminant of a store update. -/
def StoreUpdate.typeName : StoreUpdate → String
  | .channel .. => "channel"
  | .channels .. => "channels"
  | .balance .. => "balance"

/-- The snapshot carried by a store update. -/
def StoreUpdate.snap : StoreUpdate → ChannelEventsSnapshot
  | .channel _ _ s => s
  | .channels _ _ s => s
  | .balance _ _ s => s

/-- State of a `ChannelEventStore`: the three in-memory structures, the
optional repository, the ingestion clock (next `new Date()` reading) and the
`randomUUID` source. -/
structure StoreState where
  channelUpdates : List (Timestamped ChannelUpdate)
  channelUpdateHistory : List (Timestamped (List ChannelUpdate))
  balanceUpdates : List (Timestamped (List Balance))
  repo : Option RepoState
  clock : Nat
  nextUuid : Nat
deriving DecidableEq

/-- Embeds `ChannelEventStore.snapshot`: channels sorted newest-first,
shallow copies of the two history lists. -/
def StoreState.snapshot (s : StoreState) : ChannelEventsSnapshot :=
  { channels := sortByNewest s.channelUpdates
    batches := s.channelUpdateHistory
    balances := s.balanceUpdates }

/-- Embeds `ChannelEventStore.persistEvents`: skip when no repository or no
rows; a throwing `persist` is caught and only logged, leaving both the store
and the repository rows unchanged. -/
def persistEvents (s : StoreState) (rows : List ChannelEventRow) : StoreState :=
  match s.repo with
  | none => s
  | some r =>
    if rows.length = 0 then s
    else if r.failing then s
    else { s with repo := some (repoPersist r s.clock rows) }

/-- Embeds `ChannelEventStore.recordChannelUpdate`.  Returns the new state and
the notifications handed to `notify`, in order. -/
def recordChannelUpdate (s : StoreState) (update : ChannelUpdate) :
    StoreState × List StoreUpdate :=
  let channelId := normaliseChannelId update
  let entry : Timestamped ChannelUpdate := ⟨.chan channelId, s.clock, update⟩
  let s1 : StoreState :=
    { s with
      clock := s.clock + 1
      channelUpdates := trimMap (mapSet s.channelUpdates entry) }
  let s2 := persistEvents s1
    [⟨.chan channelId, .channel, .pchannel update, entry.updatedAt, some channelId⟩]
  (s2, [.channel channelId entry.updatedAt s2.snapshot])

/-- The fan-out loop of `recordChannelsUpdate`: one `recordChannelUpdate` per
element in list order, accumulating the notifications in order. -/
def recordChannelsFanout (s : StoreState) :
    List ChannelUpdate → StoreState × List StoreUpdate
  | [] => (s, [])
  | u :: rest =>
    let r := recordChannelUpdate s u
    let next := recordChannelsFanout r.1 rest
    (next.1, r.2 ++ next.2)

/-- Embeds `ChannelEventStore.recordChannelsUpdate`: prepend the batch entry
to the history, trim, fan the list out element-wise, persist the batch row,
then notify once with the element count. -/
def recordChannelsUpdate (s : StoreState) (updates : List ChannelUpdate) :
    StoreState × List StoreUpdate :=
  let entry : Timestamped (List ChannelUpdate) := ⟨.uuid s.nextUuid, s.clock, updates⟩
  let s1 : StoreState :=
    { s with
      clock := s.clock + 1
      nextUuid := s.nextUuid + 1
      channelUpdateHistory := trimArray (entry :: s.channelUpdateHistory) }
  let fan := recordChannelsFanout s1 updates
  let s2 := persistEvents fan.1
    [⟨entry.id, .channels, .pchannels updates, entry.updatedAt, none⟩]
  (s2, fan.2 ++ [.channels updates.length entry.updatedAt s2.snapshot])

/-- Embeds `ChannelEventStore.recordBalanceUpdate`. -/
def recordBalanceUpdate (s : StoreState) (balances : List Balance) :
    StoreState × List StoreUpdate :=
  let entry : Timestamped (List Balance) := ⟨.uuid s.nextUuid, s.clock, balances⟩
  let s1 : StoreState :=
    { s with
      clock := s.clock + 1
      nextUuid := s.nextUuid + 1
      balanceUpdates := trimArray (entry :: s.balanceUpdates) }
  let s2 := persistEvents s1
    [⟨entry.id, .balance, .pbalances balances, entry.updatedAt, none⟩]
  (s2, [.balance balances.length entry.updatedAt s2.snapshot])

/-- A store with empty in-memory structures, as a freshly constructed
`ChannelEventStore` before hydration. -/
def emptyStore (repo : Option RepoState) (clock0 : Nat) : StoreState :=
  { channelUpdates := []
    channelUpdateHistory := []
    balanceUpdates := []
    repo := repo
    clock := clock0
    nextUuid := 0 }

/-- The first hydration loop: rebuild the live map from persisted channel
rows, skipping rows whose payload fails to parse. -/
def hydrateChannels (rows : List ChannelEventRow) :
    List (Timestamped ChannelUpdate) :=
  rows.foldl
    (fun acc row =>
      match row.payload.asChannel with
      | some u => mapSet acc ⟨row.id, row.occurredAt, u⟩
      | none => acc)
    []

/-- The second and third hydration loops: append each parsable row to a
history list, skipping corrupt rows. -/
def hydrateList {α : Type} (parse : PersistedPayload → Option α)
    (rows : List ChannelEventRow) : List (Timestamped α) :=
  rows.foldl
    (fun acc row =>
      match parse row.payload with
      | some v => acc ++ [⟨row.id, row.occurredAt, v⟩]
      | none => acc)
    []

/-- Embeds `ChannelEventStore.hydrateFromPersistence` applied to a fresh
store: populate the three structures row by row, then re-apply limits and
ordering. -/
def hydrateFromPersistence (s : StoreState) (ps : PersistedSnapshot) :
    StoreState :=
  { s with
    channelUpdates := trimMap (hydrateChannels ps.channels)
    channelUpdateHistory :=
      trimArray (sortByNewest (hydrateList PersistedPayload.asChannels ps.batches))
    balanceUpdates :=
      trimArray (sortByNewest (hydrateList PersistedPayload.asBalances ps.balances)) }

/-- Embeds `new ChannelEventStore(repository)`: hydrate from
`repository.fetchSnapshot()` (default limit 100). -/
def newStoreFromRepo (r : RepoState) (clock0 : Nat) : StoreState :=
  hydrateFromPersistence (emptyStore (some r) clock0) (fetchSnapshot r 100)

/-- One public mutating call on the store. -/
inductive StoreOp
  | channel (u : ChannelUpdate)
  | channels (us : List ChannelUpdate)
  | balance (bs : List Balance)
deriving DecidableEq

/-- Dispatch one operation. -/
def applyOp (s : StoreState) : StoreOp → StoreState × List StoreUpdate
  | .channel u => recordChannelUpdate s u
  | .channels us => recordChannelsUpdate s us
  | .balance bs => recordBalanceUpdate s bs

/-- Run a sequence of operations, discarding notifications. -/
def runOps (s : StoreState) (ops : List StoreOp) : StoreState :=
  ops.foldl (fun acc op => (applyOp acc op).1) s

/-- A registered subscriber callback, abstracted to its observable behaviour:
its identity and whether every invocation of it throws. -/
structure Listener where
  lid : Nat
  throws : Bool
deriving DecidableEq

/-- What happened when one listener was invoked: it returned normally, or it
threw and the exception was caught and logged by the publisher. -/
inductive Outcome
  | returned
  | threwCaught
deriving DecidableEq

/-- Embeds the loop body shared by `ChannelEventStore.notify` and
`ClearNodeWebSocketClient.emit`: iterate over a copy of the listener set,
invoking each listener inside its own try/catch, so the iteration reaches
every listener. -/
def invokeAll (ls : List Listener) : List (Nat × Outcome) :=
  ls.map (fun l => (l.lid, if l.throws then Outcome.threwCaught else Outcome.returned))

/-- Embeds `ChannelEventStore.notify` for one update: the early return on an
empty listener set, then the guarded iteration. -/
def notifyListeners (ls : List Listener) (u : StoreUpdate) :
    List (Nat × StoreUpdate × Outcome) :=
  if ls.length = 0 then []
  else (invokeAll ls).map (fun p => (p.1, u, p.2))

/-- A store mutation observed together with its listener deliveries: the
resulting state and the per-listener invocation log of every notification the
operation emits, in order. -/
def applyOpWithListeners (s : StoreState) (ls : List Listener) (op : StoreOp) :
    StoreState × List (Nat × StoreUpdate × Outcome) :=
  let r := applyOp s op
  (r.1, r.2.foldr (fun u acc => notifyListeners ls u ++ acc) [])

/-- The `params` of an `auth_verify` response as `handleAuthVerify` inspects
them: not an object, or an object with an optional boolean `success`, an
optional `sessionKey` and an optional `jwtToken`.  `Boolean(undefined)` is
`false`, modelled by `Option.getD false`. -/
inductive AuthVerifyParams
  | notObj
  | obj (success : Option Bool) (sessionKey : Option String) (jwtToken : Option String)
deriving DecidableEq

/-- Events the Gateway Client emits on an auth result. -/
inductive ClientEvent
  | authenticated (sessionKey : Option String) (jwtToken : Option String)
  | authenticationFailed (params : AuthVerifyParams)
deriving DecidableEq

/-- The `ClearNodeWebSocketClient` state that the auth-result path touches or
that reconnection depends on. -/
structure ClientState where
  isAuthenticated : Bool
  reconnectTimerSet : Bool
  shouldReconnect : Bool
deriving DecidableEq

/-- Embeds `ClearNodeWebSocketClient.handleAuthVerify`: malformed params are
logged and dropped; otherwise `isAuthenticated` is set to
`Boolean(params.success)` and exactly one event is emitted.  No timer is
touched. -/
def handleAuthVerify (c : ClientState) (params : AuthVerifyParams) :
    ClientState × List ClientEvent :=
  match params with
  | .notObj => (c, [])
  | .obj success sessionKey jwtToken =>
    let succ := success.getD false
    let c1 : ClientState := { c with isAuthenticated := succ }
    if succ then (c1, [.authenticated sessionKey jwtToken])
    else (c1, [.authenticationFailed params])

/-- `handleAuthVerify` observed together with the deliveries `emit` makes to
the listeners registered for the emitted event. -/
def handleAuthVerifyWithListeners (c : ClientState) (ls : List Listener)
    (params : AuthVerifyParams) :
    ClientState × List (Nat × ClientEvent × Outcome) :=
  let r := handleAuthVerify c params
  (r.1,
    r.2.foldr
      (fun e acc =>
        (if ls.length = 0 then []
         else (invokeAll ls).map (fun p => (p.1, e, p.2))) ++ acc)
      [])

/-- A telemetry snapshot as the stream attaches it; `TelemetryCollector
.snapshot()` stamps the generation time, so freshness is its generation
instant. -/
structure TelemetrySnapshot where
  generatedAt : Nat
deriving DecidableEq

/-- One write made on a push-stream connection by
`ApiServer.handleStreamClearNodeEvents`: the initial snapshot message, a
forwarded store update tagged with its receipt time, a heartbeat message, or
the bare `:keep-alive` comment. -/
inductive StreamWrite
  | snapshotMsg (occurredAt : Nat) (snap : ChannelEventsSnapshot)
      (metrics : Option TelemetrySnapshot)
  | eventMsg (u : StoreUpdate) (receivedAt : Nat)
      (metrics : Option TelemetrySnapshot)
  | heartbeatMsg (occurredAt : Nat) (metrics : TelemetrySnapshot)
  | keepAliveComment
deriving DecidableEq

/-- An occurrence observed by one open stream connection: a store
notification delivered to its subscription, or a firing of its 15-second
heartbeat interval. -/
inductive StreamOcc
  | upd (u : StoreUpdate)
  | tick
deriving DecidableEq

/-- The write performed on connection open: one snapshot message, with
metrics attached when a telemetry collector is configured. -/
def streamOpen (store : StoreState) (telemetry : Bool) (now : Nat) :
    StreamWrite :=
  .snapshotMsg now store.snapshot (if telemetry then some ⟨now⟩ else none)

/-- The writes performed for one subsequent occurrence: the subscription
callback forwards every update with a receipt timestamp and optional metrics;
the heartbeat callback checks the connection is still writable, then sends a
telemetry-bearing heartbeat message or the bare keep-alive. -/
def streamHandle (telemetry : Bool) (writable : Bool) (now : Nat) :
    StreamOcc → List StreamWrite
  | .upd u => [.eventMsg u now (if telemetry then some ⟨now⟩ else none)]
  | .tick =>
    if writable then
      if telemetry then [.heartbeatMsg now ⟨now⟩] else [.keepAliveComment]
    else []

/-- The writes of a sequence of occurrences, each observed at a strictly
later instant than the previous one. -/
def streamWrites (telemetry : Bool) (occs : List StreamOcc) (t : Nat) :
    List StreamWrite :=
  match occs with
  | [] => []
  | o :: rest => streamHandle telemetry true t o ++ streamWrites telemetry rest (t + 1)

/-- The full write log of a connection that opens at `t0` and stays writable:
the open write, then the occurrences in order. -/
def streamRun (store : StoreState) (telemetry : Bool) (occs : List StreamOcc)
    (t0 : Nat) : List StreamWrite :=
  streamOpen store telemetry t0 :: streamWrites telemetry occs (t0 + 1)

/-- The intermediate state of `recordChannelsUpdate` after the batch entry is
prepended to the history and trimmed, before the fan-out begins. -/
def batchMidState (s : StoreState) (us : List ChannelUpdate) : StoreState :=
  { s with
    clock := s.clock + 1
    nextUuid := s.nextUuid + 1
    channelUpdateHistory :=
      trimArray (⟨.uuid s.nextUuid, s.clock, us⟩ :: s.channelUpdateHistory) }

/-! ### Concrete fixtures used by closed theorems and witnesses -/

/-- A persisted channel row with timestamp `t` for a channel key derived from
`t`, for exercising the repository trim on concrete tables. -/
def bugRow (t : Nat) : ChannelEventRow :=
  ⟨.chan (toString t), .channel, .pchannel .notObj, t, some (toString t)⟩

/-- A repository configured with `maxRows := 3` already holding three rows,
with the age-based retention pass disabled (`retentionMs = 0`). -/
def bugRepo : RepoState :=
  { rows := [bugRow 0, bugRow 1, bugRow 2], maxRows := 3, retentionMs := 0,
    failing := false }

/-- An empty repository whose `persist` always throws. -/
def failingRepo : RepoState :=
  { rows := [], maxRows := 1000, retentionMs := 0, failing := true }

/-- A single-entity update whose payload names channel `chan-1`. -/
def chan1Update : ChannelUpdate := .obj [("channelId", .fstr "chan-1")]

/-- A later update for the same channel `chan-1`. -/
def chan1Update2 : ChannelUpdate :=
  .obj [("channelId", .fstr "chan-1"), ("state", .fstr "closed")]

/-- An update whose payload names channel `chan-2` via the snake_case field. -/
def chan2Update : ChannelUpdate := .obj [("channel_id", .fstr "chan-2")]

/-- The in-memory portion of a store state: everything except the attached
repository.  Used to state that persistence outcomes are invisible to the
in-memory behaviour. -/
structure MemView where
  channelUpdates : List (Timestamped ChannelUpdate)
  channelUpdateHistory : List (Timestamped (List ChannelUpdate))
  balanceUpdates : List (Timestamped (List Balance))
  clock : Nat
  nextUuid : Nat
deriving DecidableEq

/-- Project the in-memory portion of a store state. -/
def StoreState.memView (s : StoreState) : MemView :=
  ⟨s.channelUpdates, s.channelUpdateHistory, s.balanceUpdates, s.clock, s.nextUuid⟩

/-- The snapshot determined by an in-memory view. -/
def MemView.snap (m : MemView) : ChannelEventsSnapshot :=
  ⟨sortByNewest m.channelUpdates, m.channelUpdateHistory, m.balanceUpdates⟩

/-- A 101-entry map with distinct ids and distinct timestamps, used to
exercise the map trim at a concrete over-capacity input. -/
def c4TestMap : List (Timestamped ChannelUpdate) :=
  (List.range 101).map (fun i => ⟨.uuid i, i, ChannelUpdate.notObj⟩)

/-- Repository-row cost of one record operation: one row per single update,
one per fan-out element plus the batch row for a batch, one per balance
list. -/
def opCost : StoreOp → Nat
  | .channel _ => 1
  | .channels us => 1 + us.length
  | .balance _ => 1

/-- Total repository-row cost of a sequence of operations. -/
def opsCost (ops : List StoreOp) : Nat := (ops.map opCost).sum

/-- The row `recordChannelUpdate` persists for payload `u` at instant `t`. -/
def channelRow (u : ChannelUpdate) (t : Nat) : ChannelEventRow :=
  ⟨.chan (normaliseChannelId u), .channel, .pchannel u, t, some (normaliseChannelId u)⟩

/-- The row `recordChannelsUpdate` persists for the batch itself. -/
def batchRow (us : List ChannelUpdate) (n t : Nat) : ChannelEventRow :=
  ⟨.uuid n, .channels, .pchannels us, t, none⟩

/-- The row `recordBalanceUpdate` persists. -/
def balanceRow (bs : List Balance) (n t : Nat) : ChannelEventRow :=
  ⟨.uuid n, .balance, .pbalances bs, t, none⟩

/-- Wellformedness of the repository table relative to the store: writable,
no age-based retention, primary-key and timestamp uniqueness, all stamps in
the past, and every row shaped like one the store writes (with generated ids
below the uuid source). -/
def InvMeta (s : StoreState) (r : RepoState) : Prop :=
  r.failing = false ∧
  r.retentionMs = 0 ∧
  (r.rows.map (fun x => x.id)).Nodup ∧
  (r.rows.map (fun x => x.occurredAt)).Nodup ∧
  (∀ row ∈ r.rows, row.occurredAt < s.clock) ∧
  (∀ row ∈ r.rows,
    (row.rtype = RowType.channel → ∃ u, row = channelRow u row.occurredAt) ∧
    (row.rtype = RowType.channels →
      ∃ n us, row = batchRow us n row.occurredAt ∧ n < s.nextUuid) ∧
    (row.rtype = RowType.balance →
      ∃ n bs, row = balanceRow bs n row.occurredAt ∧ n < s.nextUuid))

/-- The live channel map against the repository: every live entry has its row
persisted; a channel row absent from the live map is older than the whole
map, which is then at capacity; plus capacity, key and timestamp uniqueness
and clock bounds. -/
def InvChan (s : StoreState) (r : RepoState) : Prop :=
  (∀ e ∈ s.channelUpdates,
    channelRow e.payload e.updatedAt ∈ r.rows ∧
    e.id = .chan (normaliseChannelId e.payload)) ∧
  (∀ row ∈ r.rows, row.rtype = RowType.channel →
    row.id ∉ s.channelUpdates.map (fun e => e.id) →
    MAX_ENTRIES ≤ s.channelUpdates.length ∧
    ∀ e ∈ s.channelUpdates, row.occurredAt < e.updatedAt) ∧
  s.channelUpdates.length ≤ MAX_ENTRIES ∧
  (s.channelUpdates.map (fun e => e.id)).Nodup ∧
  (s.channelUpdates.map (fun e => e.updatedAt)).Nodup ∧
  (∀ e ∈ s.channelUpdates, e.updatedAt < s.clock)

/-- Generic invariant for one history list (batches or balances) against the
repository: every entry persisted, an absent row of that type older than the
whole list (which is then at capacity), bounded length, strictly newest-first,
stamps in the past. -/
def SideInv {α : Type} (mk : α → Nat → Nat → ChannelEventRow) (tt : RowType)
    (hist : List (Timestamped α)) (rows : List ChannelEventRow) (clock : Nat) :
    Prop :=
  (∀ h ∈ hist, ∃ n, h.id = EntryId.uuid n ∧ mk h.payload n h.updatedAt ∈ rows) ∧
  (∀ row ∈ rows, row.rtype = tt → row.id ∉ hist.map (fun h => h.id) →
    MAX_ENTRIES ≤ hist.length ∧ ∀ h ∈ hist, row.occurredAt < h.updatedAt) ∧
  hist.length ≤ MAX_ENTRIES ∧
  hist.Pairwise (fun a b => b.updatedAt < a.updatedAt) ∧
  (∀ h ∈ hist, h.updatedAt < clock)

/-- The batches history against the repository. -/
def InvHist (s : StoreState) (r : RepoState) : Prop :=
  SideInv batchRow RowType.channels s.channelUpdateHistory r.rows s.clock

/-- The balances history against the repository. -/
def InvBal (s : StoreState) (r : RepoState) : Prop :=
  SideInv balanceRow RowType.balance s.balanceUpdates r.rows s.clock

/-- The parts of the invariant the fan-out steps need and preserve. -/
def InvCore (s : StoreState) (r : RepoState) : Prop :=
  s.repo = some r ∧ InvMeta s r ∧ InvChan s r

/-- Full store/repository invariant for a store whose repository is
configured, writable and without age-based retention. -/
def Inv (M : Nat) (s : StoreState) (r : RepoState) : Prop :=
  InvCore s r ∧ r.maxRows = M ∧ InvHist s r ∧ InvBal s r

/-- The repository after one channel-row upsert. -/
def chanUpsertRepo (r : RepoState) (u : ChannelUpdate) (t : Nat) : RepoState :=
  { r with rows := repoUpsert r.rows (channelRow u t) }

/-- The numeric part of a uuid-keyed entry id (0 for channel-keyed ids):
recovers the `randomUUID` counter value a history entry was stored under. -/
def uuidOf : EntryId → Nat
  | .uuid n => n
  | .chan _ => 0

/-- Structural-recursion presentation of the `hydrateList` loop, used to
reason about hydration row by row. -/
def hydrateListRec {α : Type} (parse : PersistedPayload → Option α) :
    List ChannelEventRow → List (Timestamped α)
  | [] => []
  | row :: rows =>
    match parse row.payload with
    | some v => ⟨row.id, row.occurredAt, v⟩ :: hydrateListRec parse rows
    | none => hydrateListRec parse rows

/-! ### Generic machinery for newest-first comparator sorts

The store and the repository both sort by a numeric recency measure,
descending.  The lemmas below are generic in the measure `f`. -/

theorem insertByDesc_perm {α : Type} (f : α → Nat) (a : α) :
    ∀ (l : List α), (insertByDesc f a l).Perm (a :: l)
  | [] => List.Perm.refl _
  | b :: t => by
    unfold insertByDesc
    split
    · exact List.Perm.refl _
    · exact ((insertByDesc_perm f a t).cons b).trans (List.Perm.swap a b t)

theorem sortDescBy_perm {α : Type} (f : α → Nat) :
    ∀ (l : List α), (sortDescBy f l).Perm l
  | [] => List.Perm.refl _
  | a :: t => (insertByDesc_perm f a _).trans ((sortDescBy_perm f t).cons a)

theorem insertByDesc_pairwise {α : Type} (f : α → Nat) (a : α) :
    ∀ (l : List α), l.Pairwise (fun x y => f y ≤ f x) →
      (insertByDesc f a l).Pairwise (fun x y => f y ≤ f x)
  | [], _ => by simp [insertByDesc]
  | b :: t, h => by
    unfold insertByDesc
    rw [List.pairwise_cons] at h
    split
    · rename_i hba
      rw [List.pairwise_cons]
      refine ⟨?_, List.pairwise_cons.2 h⟩
      intro x hx
      rcases List.mem_cons.1 hx with heq | hxt
      · subst heq; exact hba
      · exact le_trans (h.1 x hxt) hba
    · rename_i hba
      rw [List.pairwise_cons]
      refine ⟨?_, insertByDesc_pairwise f a t h.2⟩
      intro x hx
      rcases List.mem_cons.1 ((insertByDesc_perm f a t).mem_iff.1 hx) with heq | hxt
      · subst heq; omega
      · exact h.1 x hxt

theorem sortDescBy_pairwise {α : Type} (f : α → Nat) :
    ∀ (l : List α), (sortDescBy f l).Pairwise (fun x y => f y ≤ f x)
  | [] => by simp [sortDescBy]
  | a :: t => insertByDesc_pairwise f a _ (sortDescBy_pairwise f t)

/-- Non-strict pairwise descending plus distinct measures upgrades to strict
pairwise descending. -/
theorem pairwise_strict_of_nodup {α : Type} (f : α → Nat) :
    ∀ (l : List α), l.Pairwise (fun a b => f b ≤ f a) → (l.map f).Nodup →
      l.Pairwise (fun a b => f b < f a)
  | [], _, _ => List.Pairwise.nil
  | a :: t, hs, hn => by
    rw [List.pairwise_cons] at hs ⊢
    simp only [List.map_cons, List.nodup_cons, List.mem_map] at hn
    refine ⟨fun b hb => ?_, pairwise_strict_of_nodup f t hs.2 hn.2⟩
    have hle := hs.1 b hb
    have hne : f b ≠ f a := fun h => hn.1 ⟨b, hb, h⟩
    exact lt_of_le_of_ne hle hne

/-- A strictly descending list has distinct measures. -/
theorem nodup_map_of_pairwise_strict {α : Type} (f : α → Nat) (l : List α)
    (h : l.Pairwise (fun a b => f b < f a)) : (l.map f).Nodup := by
  rw [List.Nodup, List.pairwise_map]
  refine h.imp ?_
  intro a b hab
  omega

/-- A strictly descending list is duplicate-free. -/
theorem nodup_of_pairwise_strict {α : Type} (f : α → Nat) (l : List α)
    (h : l.Pairwise (fun a b => f b < f a)) : l.Nodup := by
  refine h.imp ?_
  intro a b hab heq
  subst heq
  omega

/-- Two strictly descending lists with the same members are equal. -/
theorem eq_of_pairwise_strict_mem_iff {α : Type} (f : α → Nat) :
    ∀ (l1 l2 : List α), l1.Pairwise (fun a b => f b < f a) →
      l2.Pairwise (fun a b => f b < f a) → (∀ x, x ∈ l1 ↔ x ∈ l2) → l1 = l2
  | [], [], _, _, _ => rfl
  | [], b :: t2, _, _, hm => absurd ((hm b).2 (List.mem_cons_self b t2)) (List.not_mem_nil b)
  | a :: t1, [], _, _, hm => absurd ((hm a).1 (List.mem_cons_self a t1)) (List.not_mem_nil a)
  | a :: t1, b :: t2, h1, h2, hm => by
    rw [List.pairwise_cons] at h1 h2
    have hab : a = b := by
      rcases List.mem_cons.1 ((hm a).1 (List.mem_cons_self a t1)) with hc | hc
      · exact hc
      · rcases List.mem_cons.1 ((hm b).2 (List.mem_cons_self b t2)) with hd | hd
        · exact hd.symm
        · have := h1.1 b hd
          have := h2.1 a hc
          omega
    subst hab
    have hmt : ∀ x, x ∈ t1 ↔ x ∈ t2 := by
      intro x
      constructor
      · intro hx
        have hlt := h1.1 x hx
        rcases List.mem_cons.1 ((hm x).1 (List.mem_cons_of_mem a hx)) with hc | hc
        · subst hc; omega
        · exact hc
      · intro hx
        have hlt := h2.1 x hx
        rcases List.mem_cons.1 ((hm x).2 (List.mem_cons_of_mem a hx)) with hc | hc
        · subst hc; omega
        · exact hc
    rw [eq_of_pairwise_strict_mem_iff f t1 t2 h1.2 h2.2 hmt]

/-- Sorting a strictly descending list leaves it unchanged. -/
theorem sortDescBy_eq_self {α : Type} (f : α → Nat) (l : List α)
    (h : l.Pairwise (fun a b => f b < f a)) : sortDescBy f l = l := by
  have hperm := sortDescBy_perm f l
  have hnd : ((sortDescBy f l).map f).Nodup :=
    ((hperm.map f).nodup_iff).2 (nodup_map_of_pairwise_strict f l h)
  have hs := pairwise_strict_of_nodup f _ (sortDescBy_pairwise f l) hnd
  exact eq_of_pairwise_strict_mem_iff f _ l hs h (fun x => hperm.mem_iff)

/-- In a strictly descending list, membership in the first `k` elements is
exactly having fewer than `k` strictly newer elements. -/
theorem mem_take_iff_count {α : Type} (f : α → Nat) :
    ∀ (l : List α), l.Pairwise (fun a b => f b < f a) → ∀ (k : Nat) (e : α),
      e ∈ l → (e ∈ l.take k ↔ (l.filter (fun x => f e < f x)).length < k)
  | [], _, k, e, he => absurd he (List.not_mem_nil e)
  | a :: t, hs, k, e, he => by
    rw [List.pairwise_cons] at hs
    match k with
    | 0 => simp
    | k + 1 =>
      rcases List.mem_cons.1 he with heq | het
      · subst heq
        simp only [List.take_succ_cons, List.mem_cons, true_or, true_iff]
        have hnil : (e :: t).filter (fun x => decide (f e < f x)) = [] := by
          rw [List.filter_eq_nil_iff]
          intro x hx
          rcases List.mem_cons.1 hx with heq2 | hxt
          · subst heq2; simp
          · have := hs.1 x hxt
            simp only [decide_eq_true_eq]
            omega
        rw [hnil]
        simp
      · have hlt := hs.1 e het
        have hne : e ≠ a := fun h => by subst h; omega
        simp only [List.take_succ_cons, List.mem_cons, hne, false_or]
        have : (a :: t).filter (fun x => decide (f e < f x)) =
            a :: t.filter (fun x => decide (f e < f x)) := by
          rw [List.filter_cons_of_pos]
          simp only [decide_eq_true_eq]
          omega
        rw [this]
        simp only [List.length_cons, Nat.add_lt_add_iff_right]
        exact mem_take_iff_count f t hs.2 k e het

/-- Filter length is invariant under permutation. -/
theorem filter_length_perm {α : Type} (p : α → Bool) {l1 l2 : List α}
    (h : l1.Perm l2) : (l1.filter p).length = (l2.filter p).length :=
  (h.filter p).length_eq

/-! ### Frame lemmas for the store operations -/

theorem persistEvents_channelUpdates (s : StoreState) (rows : List ChannelEventRow) :
    (persistEvents s rows).channelUpdates = s.channelUpdates := by
  cases hr : s.repo
  · simp only [persistEvents, hr]
  · simp only [persistEvents, hr]
    split
    · rfl
    · split <;> rfl

theorem persistEvents_channelUpdateHistory (s : StoreState) (rows : List ChannelEventRow) :
    (persistEvents s rows).channelUpdateHistory = s.channelUpdateHistory := by
  cases hr : s.repo
  · simp only [persistEvents, hr]
  · simp only [persistEvents, hr]
    split
    · rfl
    · split <;> rfl

theorem persistEvents_balanceUpdates (s : StoreState) (rows : List ChannelEventRow) :
    (persistEvents s rows).balanceUpdates = s.balanceUpdates := by
  cases hr : s.repo
  · simp only [persistEvents, hr]
  · simp only [persistEvents, hr]
    split
    · rfl
    · split <;> rfl

theorem persistEvents_clock (s : StoreState) (rows : List ChannelEventRow) :
    (persistEvents s rows).clock = s.clock := by
  cases hr : s.repo
  · simp only [persistEvents, hr]
  · simp only [persistEvents, hr]
    split
    · rfl
    · split <;> rfl

theorem persistEvents_nextUuid (s : StoreState) (rows : List ChannelEventRow) :
    (persistEvents s rows).nextUuid = s.nextUuid := by
  cases hr : s.repo
  · simp only [persistEvents, hr]
  · simp only [persistEvents, hr]
    split
    · rfl
    · split <;> rfl

theorem persistEvents_snapshot (s : StoreState) (rows : List ChannelEventRow) :
    (persistEvents s rows).snapshot = s.snapshot := by
  simp only [StoreState.snapshot, persistEvents_channelUpdates,
    persistEvents_channelUpdateHistory, persistEvents_balanceUpdates]

theorem recordChannelUpdate_channelUpdates (s : StoreState) (u : ChannelUpdate) :
    (recordChannelUpdate s u).1.channelUpdates =
      trimMap (mapSet s.channelUpdates ⟨.chan (normaliseChannelId u), s.clock, u⟩) := by
  simp only [recordChannelUpdate, persistEvents_channelUpdates]

theorem recordChannelUpdate_channelUpdateHistory (s : StoreState) (u : ChannelUpdate) :
    (recordChannelUpdate s u).1.channelUpdateHistory = s.channelUpdateHistory := by
  simp only [recordChannelUpdate, persistEvents_channelUpdateHistory]

theorem recordChannelUpdate_balanceUpdates (s : StoreState) (u : ChannelUpdate) :
    (recordChannelUpdate s u).1.balanceUpdates = s.balanceUpdates := by
  simp only [recordChannelUpdate, persistEvents_balanceUpdates]

theorem recordChannelUpdate_clock (s : StoreState) (u : ChannelUpdate) :
    (recordChannelUpdate s u).1.clock = s.clock + 1 := by
  simp only [recordChannelUpdate, persistEvents_clock]

theorem recordChannelUpdate_nextUuid (s : StoreState) (u : ChannelUpdate) :
    (recordChannelUpdate s u).1.nextUuid = s.nextUuid := by
  simp only [recordChannelUpdate, persistEvents_nextUuid]

theorem recordChannelUpdate_snd (s : StoreState) (u : ChannelUpdate) :
    (recordChannelUpdate s u).2 =
      [.channel (normaliseChannelId u) s.clock (recordChannelUpdate s u).1.snapshot] :=
  rfl

theorem runOps_nil (s : StoreState) : runOps s [] = s := rfl

theorem runOps_cons (s : StoreState) (op : StoreOp) (ops : List StoreOp) :
    runOps s (op :: ops) = runOps (applyOp s op).1 ops := rfl

theorem persistEvents_failing (s : StoreState) (r : RepoState)
    (hr : s.repo = some r) (hf : r.failing = true)
    (rows : List ChannelEventRow) : persistEvents s rows = s := by
  simp only [persistEvents, hr]
  split
  · rfl
  · simp [hf]

theorem persistEvents_no_repo (s : StoreState) (hr : s.repo = none)
    (rows : List ChannelEventRow) : persistEvents s rows = s := by
  simp only [persistEvents, hr]

/-! ### Map and trim lemmas -/

theorem mapSet_of_not_mem {α : Type} (m : List (Timestamped α)) (e : Timestamped α)
    (h : e.id ∉ m.map (fun x => x.id)) : mapSet m e = m ++ [e] := by
  unfold mapSet
  rw [if_neg]
  simp only [List.any_eq_true, decide_eq_true_eq, not_exists, not_and]
  intro x hxm hxe
  exact h (List.mem_map.2 ⟨x, hxm, hxe⟩)

theorem mem_mapSet_self {α : Type} (m : List (Timestamped α)) (e : Timestamped α) :
    e ∈ mapSet m e := by
  unfold mapSet
  split
  · rename_i h
    rw [List.any_eq_true] at h
    obtain ⟨x, hx, hxe⟩ := h
    simp only [decide_eq_true_eq] at hxe
    exact List.mem_map.2 ⟨x, hx, by simp [hxe]⟩
  · simp

theorem mem_mapSet_elim {α : Type} (m : List (Timestamped α)) (e x : Timestamped α)
    (h : x ∈ mapSet m e) : x = e ∨ x ∈ m := by
  unfold mapSet at h
  split at h
  · obtain ⟨y, hy, hyx⟩ := List.mem_map.1 h
    by_cases hc : y.id = e.id
    · rw [if_pos hc] at hyx
      exact Or.inl hyx.symm
    · rw [if_neg hc] at hyx
      exact Or.inr (hyx ▸ hy)
  · rcases List.mem_append.1 h with hm | hm
    · exact Or.inr hm
    · exact Or.inl (List.mem_singleton.1 hm)

theorem mapSet_length_le {α : Type} (m : List (Timestamped α)) (e : Timestamped α) :
    (mapSet m e).length ≤ m.length + 1 := by
  unfold mapSet
  split
  · simp
  · simp

theorem foldl_mapSet_length_le {α : Type} :
    ∀ (l acc : List (Timestamped α)),
      (List.foldl mapSet acc l).length ≤ acc.length + l.length
  | [], acc => by simp
  | e :: t, acc => by
    simp only [List.foldl_cons]
    have h1 := foldl_mapSet_length_le t (mapSet acc e)
    have h2 := mapSet_length_le acc e
    simp only [List.length_cons]
    omega

theorem foldl_mapSet_eq {α : Type} :
    ∀ (l acc : List (Timestamped α)),
      (((acc ++ l).map (fun x => x.id)).Nodup) →
      List.foldl mapSet acc l = acc ++ l
  | [], acc, _ => by simp
  | e :: t, acc, h => by
    simp only [List.foldl_cons]
    have hnotin : e.id ∉ acc.map (fun x => x.id) := by
      simp only [List.map_append, List.map_cons] at h
      have hsub : List.Sublist (acc.map (fun x => x.id) ++ [e.id])
          (acc.map (fun x => x.id) ++ e.id :: t.map (fun x => x.id)) :=
        (List.append_sublist_append_left _).2
          (List.cons_sublist_cons.2 (List.nil_sublist _))
      have hnd := h.sublist hsub
      intro hmem
      rcases List.nodup_append.1 hnd with ⟨_, _, hdisj⟩
      exact hdisj.symm (List.mem_singleton_self e.id) hmem
    rw [mapSet_of_not_mem acc e hnotin]
    have h' : (((acc ++ [e]) ++ t).map (fun x => x.id)).Nodup := by
      rw [List.append_assoc]
      simpa using h
    rw [foldl_mapSet_eq t (acc ++ [e]) h', List.append_assoc]
    rfl

theorem trimMap_of_le (m : List (Timestamped ChannelUpdate))
    (h : m.length ≤ MAX_ENTRIES) : trimMap m = m := by
  unfold trimMap
  rw [if_pos h]

theorem sortByNewest_perm {α : Type} (l : List (Timestamped α)) :
    (sortByNewest l).Perm l := by
  exact sortDescBy_perm _ _

theorem mem_sortByNewest {α : Type} (x : Timestamped α) (l : List (Timestamped α)) :
    x ∈ sortByNewest l ↔ x ∈ l :=
  (sortByNewest_perm l).mem_iff

theorem trimMap_of_gt (m : List (Timestamped ChannelUpdate))
    (h : ¬ m.length ≤ MAX_ENTRIES) (hid : (m.map (fun x => x.id)).Nodup) :
    trimMap m = (sortByNewest m).take MAX_ENTRIES := by
  unfold trimMap
  rw [if_neg h]
  have hsort : ((sortByNewest m).map (fun x => x.id)).Nodup :=
    (((sortByNewest_perm m).map _).nodup_iff).2 hid
  have htake : (((sortByNewest m).take MAX_ENTRIES).map (fun x => x.id)).Nodup :=
    hsort.sublist ((List.take_sublist _ _).map _)
  have := foldl_mapSet_eq ((sortByNewest m).take MAX_ENTRIES) [] (by simpa using htake)
  simpa using this

theorem trimMap_length_le (m : List (Timestamped ChannelUpdate)) :
    (trimMap m).length ≤ MAX_ENTRIES := by
  unfold trimMap
  split
  · assumption
  · have h1 := foldl_mapSet_length_le ((sortByNewest m).take MAX_ENTRIES) []
    have h2 : ((sortByNewest m).take MAX_ENTRIES).length ≤ MAX_ENTRIES := by
      simp [List.length_take]
    simp only [List.length_nil, Nat.zero_add] at h1
    omega

theorem trimArray_length_le {α : Type} (l : List (Timestamped α)) :
    (trimArray l).length ≤ MAX_ENTRIES := by
  unfold trimArray
  split
  · assumption
  · simp [List.length_take]

theorem trimArray_cons_head {α : Type} (e : Timestamped α) (l : List (Timestamped α)) :
    (trimArray (e :: l)).head? = some e := by
  unfold trimArray
  split
  · rfl
  · rw [show MAX_ENTRIES = 99 + 1 from rfl, List.take_succ_cons]
    rfl

/-- An entry strictly newer than everything else in the map survives the
trim. -/
theorem mem_trimMap_newest (m : List (Timestamped ChannelUpdate))
    (e : Timestamped ChannelUpdate) (hm : e ∈ m)
    (hmax : ∀ x ∈ m, x = e ∨ x.updatedAt < e.updatedAt)
    (hid : (m.map (fun x => x.id)).Nodup) : e ∈ trimMap m := by
  by_cases h : m.length ≤ MAX_ENTRIES
  · rw [trimMap_of_le m h]
    exact hm
  · rw [trimMap_of_gt m h hid]
    have hpair : (sortByNewest m).Pairwise
        (fun a b => b.updatedAt ≤ a.updatedAt) := by
      exact sortDescBy_pairwise _ _
    cases hsc : sortByNewest m with
    | nil =>
      have : e ∈ sortByNewest m := (mem_sortByNewest e m).2 hm
      rw [hsc] at this
      exact absurd this (List.not_mem_nil e)
    | cons a rest =>
      have hein : e ∈ a :: rest := by
        rw [← hsc]
        exact (mem_sortByNewest e m).2 hm
      have hea : e = a := by
        rcases List.mem_cons.1 hein with heq | het
        · exact heq
        · have ham : a ∈ m := by
            rw [← mem_sortByNewest a m, hsc]
            exact List.mem_cons_self a rest
          rcases hmax a ham with heq | hlt
          · exact heq.symm
          · rw [hsc] at hpair
            rw [List.pairwise_cons] at hpair
            have := hpair.1 e het
            omega
      subst hea
      rw [show MAX_ENTRIES = 99 + 1 from rfl, List.take_succ_cons]
      exact List.mem_cons_self e _

theorem recordChannelUpdate_repo_none (s : StoreState) (u : ChannelUpdate)
    (hr : s.repo = none) : (recordChannelUpdate s u).1.repo = none := by
  obtain ⟨cu, hist, bal, rep, clk, nu⟩ := s
  simp only at hr
  subst hr
  simp only [recordChannelUpdate]
  rw [persistEvents_no_repo _ rfl]

theorem recordChannelsFanout_repo_none (us : List ChannelUpdate) :
    ∀ (s : StoreState), s.repo = none →
      (recordChannelsFanout s us).1.repo = none := by
  induction us with
  | nil => intro s hr; exact hr
  | cons u rest ih =>
    intro s hr
    simp only [recordChannelsFanout]
    exact ih _ (recordChannelUpdate_repo_none s u hr)

/-! ### The in-memory behaviour as a function of the memory view -/

theorem persistEvents_memView (s : StoreState) (rows : List ChannelEventRow) :
    (persistEvents s rows).memView = s.memView := by
  simp only [StoreState.memView, persistEvents_channelUpdates,
    persistEvents_channelUpdateHistory, persistEvents_balanceUpdates,
    persistEvents_clock, persistEvents_nextUuid]

theorem snapshot_eq_memView_snap (s : StoreState) :
    s.snapshot = s.memView.snap := rfl

theorem recordChannelUpdate_memView (s : StoreState) (u : ChannelUpdate) :
    (recordChannelUpdate s u).1.memView =
      ⟨trimMap (mapSet s.channelUpdates ⟨.chan (normaliseChannelId u), s.clock, u⟩),
       s.channelUpdateHistory, s.balanceUpdates, s.clock + 1, s.nextUuid⟩ := by
  simp only [StoreState.memView, recordChannelUpdate_channelUpdates,
    recordChannelUpdate_channelUpdateHistory, recordChannelUpdate_balanceUpdates,
    recordChannelUpdate_clock, recordChannelUpdate_nextUuid]

theorem recordChannelUpdate_congr (s1 s2 : StoreState) (u : ChannelUpdate)
    (h : s1.memView = s2.memView) :
    (recordChannelUpdate s1 u).1.memView = (recordChannelUpdate s2 u).1.memView ∧
    (recordChannelUpdate s1 u).2 = (recordChannelUpdate s2 u).2 := by
  obtain ⟨cu1, hh1, bb1, rep1, c1, n1⟩ := s1
  obtain ⟨cu2, hh2, bb2, rep2, c2, n2⟩ := s2
  simp only [StoreState.memView, MemView.mk.injEq] at h
  obtain ⟨rfl, rfl, rfl, rfl, rfl⟩ := h
  constructor
  · rw [recordChannelUpdate_memView, recordChannelUpdate_memView]
  · rw [recordChannelUpdate_snd, recordChannelUpdate_snd,
      snapshot_eq_memView_snap, snapshot_eq_memView_snap,
      recordChannelUpdate_memView, recordChannelUpdate_memView]

theorem recordChannelsFanout_congr (us : List ChannelUpdate) :
    ∀ (s1 s2 : StoreState), s1.memView = s2.memView →
      (recordChannelsFanout s1 us).1.memView = (recordChannelsFanout s2 us).1.memView ∧
      (recordChannelsFanout s1 us).2 = (recordChannelsFanout s2 us).2 := by
  induction us with
  | nil => intro s1 s2 h; exact ⟨h, rfl⟩
  | cons u rest ih =>
    intro s1 s2 h
    obtain ⟨h1, h2⟩ := recordChannelUpdate_congr s1 s2 u h
    obtain ⟨h3, h4⟩ := ih _ _ h1
    simp only [recordChannelsFanout]
    exact ⟨h3, by rw [h2, h4]⟩

theorem recordChannelsFanout_frame (us : List ChannelUpdate) :
    ∀ (s : StoreState),
      (recordChannelsFanout s us).1.channelUpdateHistory = s.channelUpdateHistory ∧
      (recordChannelsFanout s us).1.balanceUpdates = s.balanceUpdates ∧
      (recordChannelsFanout s us).1.nextUuid = s.nextUuid ∧
      (recordChannelsFanout s us).1.clock = s.clock + us.length := by
  induction us with
  | nil => intro s; exact ⟨rfl, rfl, rfl, rfl⟩
  | cons u rest ih =>
    intro s
    simp only [recordChannelsFanout]
    obtain ⟨h1, h2, h3, h4⟩ := ih (recordChannelUpdate s u).1
    refine ⟨?_, ?_, ?_, ?_⟩
    · rw [h1, recordChannelUpdate_channelUpdateHistory]
    · rw [h2, recordChannelUpdate_balanceUpdates]
    · rw [h3, recordChannelUpdate_nextUuid]
    · rw [h4, recordChannelUpdate_clock]
      simp only [List.length_cons]
      omega

theorem recordChannelsUpdate_congr (s1 s2 : StoreState) (us : List ChannelUpdate)
    (h : s1.memView = s2.memView) :
    (recordChannelsUpdate s1 us).1.memView = (recordChannelsUpdate s2 us).1.memView ∧
    (recordChannelsUpdate s1 us).2 = (recordChannelsUpdate s2 us).2 := by
  obtain ⟨cu1, hh1, bb1, rep1, c1, n1⟩ := s1
  obtain ⟨cu2, hh2, bb2, rep2, c2, n2⟩ := s2
  simp only [StoreState.memView, MemView.mk.injEq] at h
  obtain ⟨rfl, rfl, rfl, rfl, rfl⟩ := h
  simp only [recordChannelsUpdate]
  obtain ⟨hf1, hf2⟩ := recordChannelsFanout_congr us
    ({ channelUpdates := cu1, channelUpdateHistory :=
        trimArray (⟨.uuid n1, c1, us⟩ :: hh1), balanceUpdates := bb1,
       repo := rep1, clock := c1 + 1, nextUuid := n1 + 1 })
    ({ channelUpdates := cu1, channelUpdateHistory :=
        trimArray (⟨.uuid n1, c1, us⟩ :: hh1), balanceUpdates := bb1,
       repo := rep2, clock := c1 + 1, nextUuid := n1 + 1 }) rfl
  constructor
  · rw [persistEvents_memView, persistEvents_memView, hf1]
  · rw [hf2, snapshot_eq_memView_snap, snapshot_eq_memView_snap,
      persistEvents_memView, persistEvents_memView, hf1]

theorem recordBalanceUpdate_memView (s : StoreState) (bs : List Balance) :
    (recordBalanceUpdate s bs).1.memView =
      ⟨s.channelUpdates, s.channelUpdateHistory,
       trimArray (⟨.uuid s.nextUuid, s.clock, bs⟩ :: s.balanceUpdates),
       s.clock + 1, s.nextUuid + 1⟩ := by
  simp only [recordBalanceUpdate, StoreState.memView, persistEvents_channelUpdates,
    persistEvents_channelUpdateHistory, persistEvents_balanceUpdates,
    persistEvents_clock, persistEvents_nextUuid]

theorem recordBalanceUpdate_congr (s1 s2 : StoreState) (bs : List Balance)
    (h : s1.memView = s2.memView) :
    (recordBalanceUpdate s1 bs).1.memView = (recordBalanceUpdate s2 bs).1.memView ∧
    (recordBalanceUpdate s1 bs).2 = (recordBalanceUpdate s2 bs).2 := by
  obtain ⟨cu1, hh1, bb1, rep1, c1, n1⟩ := s1
  obtain ⟨cu2, hh2, bb2, rep2, c2, n2⟩ := s2
  simp only [StoreState.memView, MemView.mk.injEq] at h
  obtain ⟨rfl, rfl, rfl, rfl, rfl⟩ := h
  constructor
  · rw [recordBalanceUpdate_memView, recordBalanceUpdate_memView]
  · show [StoreUpdate.balance bs.length c1 _] = [StoreUpdate.balance bs.length c1 _]
    rw [persistEvents_snapshot, persistEvents_snapshot]
    simp [StoreState.snapshot]

theorem applyOp_congr (s1 s2 : StoreState) (op : StoreOp)
    (h : s1.memView = s2.memView) :
    (applyOp s1 op).1.memView = (applyOp s2 op).1.memView ∧
    (applyOp s1 op).2 = (applyOp s2 op).2 := by
  cases op with
  | channel u => exact recordChannelUpdate_congr s1 s2 u h
  | channels us => exact recordChannelsUpdate_congr s1 s2 us h
  | balance bs => exact recordBalanceUpdate_congr s1 s2 bs h

/-! ### Repository preservation when the repository write throws -/

theorem recordChannelUpdate_repo_failing (s : StoreState) (r : RepoState)
    (u : ChannelUpdate) (hr : s.repo = some r) (hf : r.failing = true) :
    (recordChannelUpdate s u).1.repo = some r := by
  obtain ⟨cu, hist, bal, rep, clk, nu⟩ := s
  simp only at hr
  subst hr
  simp only [recordChannelUpdate]
  rw [persistEvents_failing _ r rfl hf]

theorem recordChannelsFanout_repo_failing (r : RepoState) (us : List ChannelUpdate)
    (hf : r.failing = true) :
    ∀ (s : StoreState), s.repo = some r →
      (recordChannelsFanout s us).1.repo = some r := by
  induction us with
  | nil => intro s hr; exact hr
  | cons u rest ih =>
    intro s hr
    simp only [recordChannelsFanout]
    exact ih _ (recordChannelUpdate_repo_failing s r u hr hf)

theorem applyOp_repo_failing (s : StoreState) (r : RepoState) (op : StoreOp)
    (hr : s.repo = some r) (hf : r.failing = true) :
    (applyOp s op).1.repo = some r := by
  cases op with
  | channel u => exact recordChannelUpdate_repo_failing s r u hr hf
  | channels us =>
    obtain ⟨cu, hist, bal, rep, clk, nu⟩ := s
    simp only at hr
    subst hr
    simp only [applyOp, recordChannelsUpdate]
    rw [persistEvents_failing _ r
      (recordChannelsFanout_repo_failing r us hf _ rfl) hf]
    exact recordChannelsFanout_repo_failing r us hf _ rfl
  | balance bs =>
    obtain ⟨cu, hist, bal, rep, clk, nu⟩ := s
    simp only at hr
    subst hr
    simp only [applyOp, recordBalanceUpdate]
    rw [persistEvents_failing _ r rfl hf]

theorem mapSet_nodup_ids {α : Type} (m : List (Timestamped α)) (e : Timestamped α)
    (h : (m.map (fun x => x.id)).Nodup) :
    ((mapSet m e).map (fun x => x.id)).Nodup := by
  unfold mapSet
  split
  · have heq : (m.map (fun x => if x.id = e.id then e else x)).map (fun x => x.id)
        = m.map (fun x => x.id) := by
      rw [List.map_map]
      apply List.map_congr_left
      intro x hx
      by_cases hc : x.id = e.id
      · simp [hc]
      · simp [hc]
    rw [heq]
    exact h
  · rename_i hno
    rw [List.map_append]
    rw [List.nodup_append]
    refine ⟨h, List.nodup_singleton _, ?_⟩
    intro a ha hb
    simp only [List.map_cons, List.map_nil, List.mem_singleton] at hb
    subst hb
    obtain ⟨x, hx, hxe⟩ := List.mem_map.1 ha
    apply hno
    rw [List.any_eq_true]
    exact ⟨x, hx, by simp [hxe]⟩

/-! ### Claim theorems -/

/-- C2: the repository's row-count retention is broken.  With `maxRows = 3`
and rows at times 0, 1 and 2 already in the table, persisting a fourth row at
time 3 leaves only the rows at times 2 and 3: the row at time 1 is deleted
even though it is among the three newest rows of the table (as
`fetchLatest` over the pre-trim table shows), so the trim does not keep the
`maxRows` newest rows. -/
theorem c2_repo_trim_deletes_wrong_rows :
    (repoPersist bugRepo 4 [bugRow 3]).rows = [bugRow 2, bugRow 3] ∧
    bugRow 1 ∈ fetchLatest (repoUpsert bugRepo.rows (bugRow 3)) RowType.channel 3 ∧
    bugRow 1 ∉ (repoPersist bugRepo 4 [bugRow 3]).rows := by decide

/-- C7: an auth-verify response object sets `isAuthenticated` to the carried
`success` flag; on success the client emits exactly one `authenticated` event
exposing the granted session key and token, on failure exactly one
`authenticationFailed` event; neither case touches the reconnect timer or the
desire to reconnect. -/
theorem c7_auth_verify_result (c : ClientState) (sk tok : Option String) (b : Bool) :
    (handleAuthVerify c (.obj (some b) sk tok)).1.isAuthenticated = b ∧
    (handleAuthVerify c (.obj (some b) sk tok)).1.reconnectTimerSet = c.reconnectTimerSet ∧
    (handleAuthVerify c (.obj (some b) sk tok)).1.shouldReconnect = c.shouldReconnect ∧
    (handleAuthVerify c (.obj (some b) sk tok)).2 =
      (if b then [ClientEvent.authenticated sk tok]
       else [ClientEvent.authenticationFailed (.obj (some b) sk tok)]) := by
  cases b <;> simp [handleAuthVerify]

/-- C3 counterexample: with a repository whose `persist` throws, ingesting a
channel update still leaves the event in the live map and in the subsequent
snapshot while the repository is unchanged — the event IS acknowledged
despite the failed repository write, refuting the claimed write-ahead
behaviour. -/
theorem c3_failed_write_still_ingested :
    (recordChannelUpdate (newStoreFromRepo failingRepo 0) chan1Update).1.repo
        = some failingRepo ∧
    (recordChannelUpdate (newStoreFromRepo failingRepo 0) chan1Update).1.snapshot.channels
        = [⟨.chan "chan-1", 0, chan1Update⟩] := by decide

/-- C3 (amended): persistence is best-effort, not write-ahead.  For every
record operation on a store whose repository write fails, the exception is
caught, the repository is left unchanged, and the in-memory outcome (state
and notifications) is exactly that of a store with no repository configured;
in particular a single-entity update still lands in the live map and is
visible in the snapshots carried by subsequent notifications. -/
theorem c3_failed_write_best_effort (s : StoreState) (r : RepoState) (op : StoreOp)
    (hr : s.repo = some r) (hf : r.failing = true) :
    (applyOp s op).1.repo = some r ∧
    (applyOp s op).1.memView = (applyOp { s with repo := none } op).1.memView ∧
    (applyOp s op).2 = (applyOp { s with repo := none } op).2 ∧
    (∀ u, op = .channel u →
      (s.channelUpdates.map (fun e => e.id)).Nodup →
      (∀ e ∈ s.channelUpdates, e.updatedAt < s.clock) →
      (⟨.chan (normaliseChannelId u), s.clock, u⟩ : Timestamped ChannelUpdate)
        ∈ (applyOp s op).1.snapshot.channels) := by
  refine ⟨applyOp_repo_failing s r op hr hf,
    (applyOp_congr s { s with repo := none } op rfl).1,
    (applyOp_congr s { s with repo := none } op rfl).2, ?_⟩
  rintro u rfl hnd hlt
  have hmem : (⟨.chan (normaliseChannelId u), s.clock, u⟩ : Timestamped ChannelUpdate)
      ∈ (recordChannelUpdate s u).1.channelUpdates := by
    rw [recordChannelUpdate_channelUpdates]
    apply mem_trimMap_newest
    · exact mem_mapSet_self _ _
    · intro x hx
      rcases mem_mapSet_elim _ _ x hx with heq | hm
      · exact Or.inl heq
      · exact Or.inr (hlt x hm)
    · exact mapSet_nodup_ids _ _ hnd
  exact (mem_sortByNewest _ _).2 hmem

/-- C3 (amended) witness: the amended behaviour at a concrete failing store. -/
theorem c3_failed_write_best_effort_witness :
    (applyOp (newStoreFromRepo failingRepo 0) (.channel chan1Update)).1.repo
        = some failingRepo ∧
    (⟨.chan "chan-1", 0, chan1Update⟩ : Timestamped ChannelUpdate)
      ∈ (applyOp (newStoreFromRepo failingRepo 0) (.channel chan1Update)).1.snapshot.channels :=
  ⟨(c3_failed_write_best_effort (newStoreFromRepo failingRepo 0) failingRepo
      (.channel chan1Update) rfl rfl).1,
   (c3_failed_write_best_effort (newStoreFromRepo failingRepo 0) failingRepo
      (.channel chan1Update) rfl rfl).2.2.2 chan1Update rfl (by decide)
      (by intro e he; exact absurd he (List.not_mem_nil e))⟩

/-! ### Stream write-log lemmas -/

theorem streamWrites_length (tel : Bool) :
    ∀ (us : List StoreUpdate) (t : Nat),
      (streamWrites tel (us.map StreamOcc.upd ++ [StreamOcc.tick]) t).length
        = us.length + 1
  | [], t => by cases tel <;> simp [streamWrites, streamHandle]
  | u :: rest, t => by
    have ih := streamWrites_length tel rest (t + 1)
    simp [streamWrites, streamHandle, ih]

theorem streamWrites_get (tel : Bool) :
    ∀ (us : List StoreUpdate) (t : Nat) (i : Nat) (u : StoreUpdate),
      us[i]? = some u →
      (streamWrites tel (us.map StreamOcc.upd ++ [StreamOcc.tick]) t)[i]? =
        some (.eventMsg u (t + i) (if tel then some ⟨t + i⟩ else none))
  | [], t, i, u, h => by simp at h
  | v :: rest, t, 0, u, h => by
    simp only [List.getElem?_cons_zero, Option.some.injEq] at h
    subst h
    simp [streamWrites, streamHandle]
  | v :: rest, t, i + 1, u, h => by
    simp only [List.getElem?_cons_succ] at h
    have ih := streamWrites_get tel rest (t + 1) i u h
    have harith : t + (i + 1) = (t + 1) + i := by omega
    simp [streamWrites, streamHandle, harith, ih]

theorem streamWrites_last (tel : Bool) :
    ∀ (us : List StoreUpdate) (t : Nat),
      (streamWrites tel (us.map StreamOcc.upd ++ [StreamOcc.tick]) t)[us.length]? =
        some (if tel then .heartbeatMsg (t + us.length) ⟨t + us.length⟩
              else .keepAliveComment)
  | [], t => by cases tel <;> simp [streamWrites, streamHandle]
  | v :: rest, t => by
    have ih := streamWrites_last tel rest (t + 1)
    have harith : t + (rest.length + 1) = (t + 1) + rest.length := by omega
    simp [streamWrites, streamHandle, harith, ih]

/-- C9: a push-stream connection opened before any events arrive writes, in
order: exactly one snapshot message first (with a telemetry snapshot attached
when telemetry is configured), then exactly one message per subsequently
ingested event in ingestion order, each tagged with its receipt time, and
then - when the heartbeat interval fires with no further traffic - one
heartbeat message carrying a fresh telemetry snapshot if telemetry is
configured, otherwise a bare keep-alive comment. -/
theorem c9_stream_scenario (store : StoreState) (tel : Bool)
    (us : List StoreUpdate) (t0 : Nat) :
    (streamRun store tel (us.map StreamOcc.upd ++ [StreamOcc.tick]) t0).length
      = us.length + 2 ∧
    (streamRun store tel (us.map StreamOcc.upd ++ [StreamOcc.tick]) t0)[0]? =
      some (.snapshotMsg t0 store.snapshot (if tel then some ⟨t0⟩ else none)) ∧
    (∀ i u, us[i]? = some u →
      (streamRun store tel (us.map StreamOcc.upd ++ [StreamOcc.tick]) t0)[i + 1]? =
        some (.eventMsg u (t0 + 1 + i) (if tel then some ⟨t0 + 1 + i⟩ else none))) ∧
    (streamRun store tel (us.map StreamOcc.upd ++ [StreamOcc.tick]) t0)[us.length + 1]? =
      some (if tel then .heartbeatMsg (t0 + 1 + us.length) ⟨t0 + 1 + us.length⟩
            else .keepAliveComment) := by
  refine ⟨?_, by simp [streamRun, streamOpen], ?_, ?_⟩
  · simp only [streamRun, List.length_cons, streamWrites_length]
  · intro i u h
    simp only [streamRun, streamOpen, List.getElem?_cons_succ]
    exact streamWrites_get tel us (t0 + 1) i u h
  · simp only [streamRun, streamOpen, List.getElem?_cons_succ]
    exact streamWrites_last tel us (t0 + 1)

/-- C9 witness: the scenario evaluated on a connection with telemetry, one
subsequent event and one heartbeat tick. -/
theorem c9_stream_scenario_witness :
    (streamRun (emptyStore none 0) true
        ([StoreUpdate.balance 0 5 (emptyStore none 0).snapshot].map StreamOcc.upd
          ++ [StreamOcc.tick]) 7)[1]? =
      some (.eventMsg (StoreUpdate.balance 0 5 (emptyStore none 0).snapshot) 8
        (some ⟨8⟩)) :=
  (c9_stream_scenario (emptyStore none 0) true
    [StoreUpdate.balance 0 5 (emptyStore none 0).snapshot] 7).2.2.1 0 _ rfl

/-! ### Fan-out notification lemmas -/

theorem recordChannelsFanout_snd_length (us : List ChannelUpdate) :
    ∀ (s : StoreState), (recordChannelsFanout s us).2.length = us.length := by
  induction us with
  | nil => intro s; rfl
  | cons u rest ih =>
    intro s
    simp [recordChannelsFanout, recordChannelUpdate_snd, ih]

theorem recordChannelsFanout_snd_get (us : List ChannelUpdate) :
    ∀ (s : StoreState) (i : Nat) (u : ChannelUpdate), us[i]? = some u →
      ∃ snap, (recordChannelsFanout s us).2[i]? =
          some (.channel (normaliseChannelId u) (s.clock + i) snap) ∧
        snap.batches = s.channelUpdateHistory := by
  induction us with
  | nil => intro s i u h; simp at h
  | cons v rest ih =>
    intro s i u h
    match i with
    | 0 =>
      have hv : v = u := by simpa using h
      subst hv
      refine ⟨(recordChannelUpdate s v).1.snapshot, ?_, ?_⟩
      · simp [recordChannelsFanout, recordChannelUpdate_snd]
      · show (recordChannelUpdate s v).1.channelUpdateHistory = s.channelUpdateHistory
        exact recordChannelUpdate_channelUpdateHistory s v
    | i + 1 =>
      simp only [List.getElem?_cons_succ] at h
      obtain ⟨snap, h1, h2⟩ := ih (recordChannelUpdate s v).1 i u h
      refine ⟨snap, ?_, ?_⟩
      · have harith : (recordChannelUpdate s v).1.clock + i = s.clock + (i + 1) := by
          rw [recordChannelUpdate_clock]; omega
        rw [← harith]
        simpa [recordChannelsFanout, recordChannelUpdate_snd] using h1
      · rw [h2, recordChannelUpdate_channelUpdateHistory]

theorem recordChannelsFanout_snd_types (us : List ChannelUpdate) :
    ∀ (s : StoreState), ∀ n ∈ (recordChannelsFanout s us).2,
      n.typeName = "channel" := by
  induction us with
  | nil => intro s n h; simp [recordChannelsFanout] at h
  | cons v rest ih =>
    intro s n h
    simp only [recordChannelsFanout, recordChannelUpdate_snd,
      List.singleton_append, List.mem_cons] at h
    rcases h with heq | hmem
    · subst heq; rfl
    · exact ih _ n hmem

theorem recordChannelsUpdate_channelUpdateHistory (s : StoreState)
    (us : List ChannelUpdate) :
    (recordChannelsUpdate s us).1.channelUpdateHistory =
      trimArray (⟨.uuid s.nextUuid, s.clock, us⟩ :: s.channelUpdateHistory) := by
  simp only [recordChannelsUpdate, persistEvents_channelUpdateHistory]
  rw [(recordChannelsFanout_frame us _).1]

theorem recordChannelsUpdate_snd (s : StoreState) (us : List ChannelUpdate) :
    (recordChannelsUpdate s us).2 =
      (recordChannelsFanout (batchMidState s us) us).2
      ++ [.channels us.length s.clock (recordChannelsUpdate s us).1.snapshot] :=
  rfl

/-- C6: `recordChannelsUpdate(list)` stores the list itself as one entry at
the head of the batches history, fans the list out through one
`recordChannelUpdate` per element (the live map is the one produced by that
fold), and notifies subscribers with exactly one type-`channel` update per
element (carrying that element's partition key) plus exactly one
type-`channels` update carrying `count = list.length` - `N + 1` notifications
in total. -/
theorem c6_batch_fanout (s : StoreState) (us : List ChannelUpdate) :
    (recordChannelsUpdate s us).1.channelUpdateHistory.head? =
      some ⟨.uuid s.nextUuid, s.clock, us⟩ ∧
    (recordChannelsUpdate s us).1.channelUpdates =
      (recordChannelsFanout (batchMidState s us) us).1.channelUpdates ∧
    (recordChannelsUpdate s us).2.length = us.length + 1 ∧
    (∀ (i : Nat) (u : ChannelUpdate), us[i]? = some u →
      ∃ snap : ChannelEventsSnapshot,
      (recordChannelsUpdate s us).2[i]? =
        some (StoreUpdate.channel (normaliseChannelId u) (s.clock + 1 + i) snap)) ∧
    (recordChannelsUpdate s us).2[us.length]? =
      some (.channels us.length s.clock (recordChannelsUpdate s us).1.snapshot) ∧
    ((recordChannelsUpdate s us).2.filter
      (fun n => n.typeName = "channels")).length = 1 := by
  refine ⟨?_, ?_, ?_, ?_, ?_, ?_⟩
  · rw [recordChannelsUpdate_channelUpdateHistory]
    exact trimArray_cons_head _ _
  · simp only [recordChannelsUpdate, persistEvents_channelUpdates, batchMidState]
  · rw [recordChannelsUpdate_snd]
    simp [recordChannelsFanout_snd_length]
  · intro i u h
    have hi : i < us.length := by
      by_contra hge
      rw [List.getElem?_eq_none (by omega)] at h
      exact Option.noConfusion h
    obtain ⟨snap, h1, _⟩ :=
      recordChannelsFanout_snd_get us (batchMidState s us) i u h
    refine ⟨snap, ?_⟩
    rw [recordChannelsUpdate_snd, List.getElem?_append_left
      (by rw [recordChannelsFanout_snd_length]; exact hi)]
    exact h1
  · rw [recordChannelsUpdate_snd, List.getElem?_append_right
      (by rw [recordChannelsFanout_snd_length])]
    rw [recordChannelsFanout_snd_length]
    simp
  · rw [recordChannelsUpdate_snd, List.filter_append]
    have hnil : ((recordChannelsFanout (batchMidState s us) us).2.filter
        (fun n => n.typeName = "channels")) = [] := by
      rw [List.filter_eq_nil_iff]
      intro n hn
      rw [recordChannelsFanout_snd_types us _ n hn]
      simp
    rw [hnil]
    simp [StoreUpdate.typeName]

/-- C6 witness: the fan-out behaviour at a concrete two-element batch. -/
theorem c6_batch_fanout_witness :
    ((recordChannelsUpdate (emptyStore none 0) [chan1Update, chan2Update]).2.length = 3) ∧
    (∃ snap : ChannelEventsSnapshot,
      (recordChannelsUpdate (emptyStore none 0) [chan1Update, chan2Update]).2[1]? =
        some (StoreUpdate.channel "chan-2" 2 snap)) :=
  ⟨(c6_batch_fanout (emptyStore none 0) [chan1Update, chan2Update]).2.2.1,
   (c6_batch_fanout (emptyStore none 0) [chan1Update, chan2Update]).2.2.2.1 1
     chan2Update rfl⟩

/-- C10: inside `recordChannelsUpdate` the batch history entry is prepended
(and trimmed) before the per-element fan-out begins, so every per-element
type-`channel` notification carries a snapshot whose batches list already has
the new batch entry at its head, and all `N` per-element notifications precede
the single type-`channels` notification, which comes last. -/
theorem c10_batch_entry_visible_during_fanout (s : StoreState)
    (us : List ChannelUpdate) :
    (∀ (i : Nat) (u : ChannelUpdate), us[i]? = some u →
      ∃ (cid : String) (snap : ChannelEventsSnapshot),
      (recordChannelsUpdate s us).2[i]? =
        some (StoreUpdate.channel cid (s.clock + 1 + i) snap) ∧
      snap.batches.head? = some ⟨.uuid s.nextUuid, s.clock, us⟩) ∧
    (recordChannelsUpdate s us).2.length = us.length + 1 ∧
    ((recordChannelsUpdate s us).2[us.length]?.map StoreUpdate.typeName)
      = some "channels" := by
  refine ⟨?_, ?_, ?_⟩
  · intro i u h
    have hi : i < us.length := by
      by_contra hge
      rw [List.getElem?_eq_none (by omega)] at h
      exact Option.noConfusion h
    obtain ⟨snap, h1, h2⟩ :=
      recordChannelsFanout_snd_get us (batchMidState s us) i u h
    refine ⟨normaliseChannelId u, snap, ?_, ?_⟩
    · rw [recordChannelsUpdate_snd, List.getElem?_append_left
        (by rw [recordChannelsFanout_snd_length]; exact hi)]
      exact h1
    · rw [h2]
      exact trimArray_cons_head _ _
  · rw [recordChannelsUpdate_snd]
    simp [recordChannelsFanout_snd_length]
  · rw [recordChannelsUpdate_snd, List.getElem?_append_right
      (by rw [recordChannelsFanout_snd_length])]
    rw [recordChannelsFanout_snd_length]
    simp [StoreUpdate.typeName]

/-- C10 witness: at a concrete batch, the first per-element notification
already sees the new batch entry at the head of its snapshot's batches. -/
theorem c10_batch_entry_visible_during_fanout_witness :
    ∃ (cid : String) (snap : ChannelEventsSnapshot),
      (recordChannelsUpdate (emptyStore none 0) [chan1Update, chan2Update]).2[0]? =
        some (StoreUpdate.channel cid 1 snap) ∧
      snap.batches.head? =
        some ⟨.uuid 0, 0, [chan1Update, chan2Update]⟩ :=
  (c10_batch_entry_visible_during_fanout (emptyStore none 0)
    [chan1Update, chan2Update]).1 0 chan1Update rfl

/-! ### Single-partition latest-write-wins lemmas -/

theorem recordChannelUpdate_singleton (s : StoreState) (u : ChannelUpdate)
    (k : String) (hk : normaliseChannelId u = k)
    (hs : s.channelUpdates = [] ∨
      ∃ (t : Nat) (p : ChannelUpdate), s.channelUpdates = [⟨.chan k, t, p⟩]) :
    (recordChannelUpdate s u).1.channelUpdates = [⟨.chan k, s.clock, u⟩] := by
  rw [recordChannelUpdate_channelUpdates, hk]
  rcases hs with h | ⟨t, p, h⟩ <;> rw [h]
  · rw [mapSet_of_not_mem _ _ (by simp)]
    rw [trimMap_of_le _ (by simp [MAX_ENTRIES])]
    rfl
  · unfold mapSet
    rw [if_pos (by simp)]
    rw [trimMap_of_le _ (by simp [MAX_ENTRIES])]
    simp

theorem runOps_same_key (k : String) :
    ∀ (us : List ChannelUpdate) (s : StoreState), us ≠ [] →
      (∀ u ∈ us, normaliseChannelId u = k) →
      (s.channelUpdates = [] ∨
        ∃ (t : Nat) (p : ChannelUpdate), s.channelUpdates = [⟨.chan k, t, p⟩]) →
      ∀ (u : ChannelUpdate), us.getLast? = some u →
        (runOps s (us.map StoreOp.channel)).channelUpdates =
          [⟨.chan k, s.clock + us.length - 1, u⟩] := by
  intro us
  induction us with
  | nil => intro s hne _ _ _ _; exact absurd rfl hne
  | cons v rest ih =>
    intro s _ hk hs u hlast
    match hrest : rest with
    | [] =>
      have hv : v = u := by simpa using hlast
      simp only [List.map_cons, List.map_nil, runOps_cons, runOps_nil, applyOp]
      rw [recordChannelUpdate_singleton s v k (hk v (List.mem_cons_self v [])) hs, hv]
      simp
    | w :: rest2 =>
      subst hrest
      have hlast2 : (w :: rest2).getLast? = some u := by
        rw [List.getLast?_cons_cons] at hlast
        exact hlast
      simp only [List.map_cons, runOps_cons, applyOp]
      have hstep := recordChannelUpdate_singleton s v k
        (hk v (List.mem_cons_self v _)) hs
      have := ih (recordChannelUpdate s v).1 (by simp)
        (fun x hx => hk x (List.mem_cons_of_mem v hx))
        (Or.inr ⟨s.clock, v, hstep⟩) u hlast2
      rw [show (recordChannelUpdate s v).1.clock = s.clock + 1
        from recordChannelUpdate_clock s v] at this
      simp only [List.map_cons, runOps_cons, applyOp] at this
      rw [this]
      simp only [List.length_cons]
      congr 2
      omega

/-- C1: for a sequence of `recordChannelUpdate` calls whose payloads all
normalise to the same partition key, the snapshot taken afterwards contains
exactly one channels entry for that key, holding the payload of the most
recently ingested call (with the store-assigned timestamp of the last call);
moreover, for any sequence of record operations whatsoever, the channels list
of the resulting snapshot is sorted newest-first by the store-assigned
`updatedAt` timestamp. -/
theorem c1_latest_write_wins (k : String) (us : List ChannelUpdate) (c0 : Nat)
    (hne : us ≠ []) (hk : ∀ u ∈ us, normaliseChannelId u = k)
    (u : ChannelUpdate) (hlast : us.getLast? = some u) :
    (runOps (emptyStore none c0) (us.map StoreOp.channel)).snapshot.channels =
      [⟨.chan k, c0 + us.length - 1, u⟩] ∧
    ∀ (s : StoreState) (ops : List StoreOp),
      ((runOps s ops).snapshot.channels).Pairwise
        (fun a b => b.updatedAt ≤ a.updatedAt) := by
  constructor
  · have h := runOps_same_key k us (emptyStore none c0) hne hk (Or.inl rfl) u hlast
    show sortByNewest (runOps (emptyStore none c0)
      (us.map StoreOp.channel)).channelUpdates = _
    rw [h]
    rfl
  · intro s ops
    exact sortDescBy_pairwise _ _

/-- C1 witness: two updates to `chan-1` leave exactly the second one in the
snapshot, stamped with the second ingestion instant. -/
theorem c1_latest_write_wins_witness :
    (runOps (emptyStore none 5)
      ([chan1Update, chan1Update2].map StoreOp.channel)).snapshot.channels =
      [⟨.chan "chan-1", 6, chan1Update2⟩] :=
  (c1_latest_write_wins "chan-1" [chan1Update, chan1Update2] 5 (by decide)
    (by decide) chan1Update2 rfl).1

/-! ### Listener isolation lemmas -/

theorem mem_notifyListeners (ls : List Listener) (l : Listener) (u : StoreUpdate)
    (hl : l ∈ ls) (ht : l.throws = false) :
    (l.lid, u, Outcome.returned) ∈ notifyListeners ls u := by
  unfold notifyListeners
  rw [if_neg (by cases ls with
    | nil => exact absurd hl (List.not_mem_nil l)
    | cons a t => simp)]
  refine List.mem_map.2 ⟨(l.lid, Outcome.returned), ?_, rfl⟩
  exact List.mem_map.2 ⟨l, hl, by simp [ht]⟩

theorem mem_notify_foldr (ls : List Listener) (l : Listener)
    (hl : l ∈ ls) (ht : l.throws = false) :
    ∀ (notifs : List StoreUpdate) (u : StoreUpdate), u ∈ notifs →
      (l.lid, u, Outcome.returned) ∈
        notifs.foldr (fun v acc => notifyListeners ls v ++ acc) []
  | [], u, hu => absurd hu (List.not_mem_nil u)
  | v :: rest, u, hu => by
    simp only [List.foldr_cons]
    rcases List.mem_cons.1 hu with heq | hmem
    · subst heq
      exact List.mem_append_left _ (mem_notifyListeners ls l u hl ht)
    · exact List.mem_append_right _ (mem_notify_foldr ls l hl ht rest u hmem)

theorem mem_emit_foldr (ls : List Listener) (l : Listener)
    (hl : l ∈ ls) (ht : l.throws = false) :
    ∀ (events : List ClientEvent) (e : ClientEvent), e ∈ events →
      (l.lid, e, Outcome.returned) ∈
        events.foldr
          (fun ev acc =>
            (if ls.length = 0 then []
             else (invokeAll ls).map (fun p => (p.1, ev, p.2))) ++ acc) []
  | [], e, he => absurd he (List.not_mem_nil e)
  | v :: rest, e, he => by
    simp only [List.foldr_cons]
    rcases List.mem_cons.1 he with heq | hmem
    · subst heq
      refine List.mem_append_left _ ?_
      rw [if_neg (by cases ls with
        | nil => exact absurd hl (List.not_mem_nil l)
        | cons a t => simp)]
      refine List.mem_map.2 ⟨(l.lid, Outcome.returned), ?_, rfl⟩
      exact List.mem_map.2 ⟨l, hl, by simp [ht]⟩
    · exact List.mem_append_right _ (mem_emit_foldr ls l hl ht rest e hmem)

/-- C8: a listener that throws on every invocation is isolated: the store
completes the mutation exactly as without listeners, and every other
registered listener still receives every notification of the operation (its
invocation returns normally and appears in the delivery log); the same holds
for the Gateway Client's event emission. -/
theorem c8_listener_isolation :
    (∀ (s : StoreState) (ls : List Listener) (op : StoreOp),
      (applyOpWithListeners s ls op).1 = (applyOp s op).1 ∧
      (∀ l ∈ ls, l.throws = false → ∀ u ∈ (applyOp s op).2,
        (l.lid, u, Outcome.returned) ∈ (applyOpWithListeners s ls op).2)) ∧
    (∀ (c : ClientState) (ls : List Listener) (params : AuthVerifyParams),
      (handleAuthVerifyWithListeners c ls params).1 = (handleAuthVerify c params).1 ∧
      (∀ l ∈ ls, l.throws = false → ∀ e ∈ (handleAuthVerify c params).2,
        (l.lid, e, Outcome.returned) ∈ (handleAuthVerifyWithListeners c ls params).2)) := by
  constructor
  · intro s ls op
    refine ⟨rfl, ?_⟩
    intro l hl ht u hu
    exact mem_notify_foldr ls l hl ht (applyOp s op).2 u hu
  · intro c ls params
    refine ⟨rfl, ?_⟩
    intro l hl ht e he
    exact mem_emit_foldr ls l hl ht (handleAuthVerify c params).2 e he

/-- C8 witness: with one always-throwing listener and one normal listener,
the normal listener still receives the notification of a balance update, and
the store state is the one of the plain operation. -/
theorem c8_listener_isolation_witness :
    (applyOpWithListeners (emptyStore none 0) [⟨1, true⟩, ⟨2, false⟩]
        (.balance [⟨7⟩])).1 =
      (applyOp (emptyStore none 0) (.balance [⟨7⟩])).1 ∧
    (2, StoreUpdate.balance 1 0 ⟨[], [], [⟨.uuid 0, 0, [⟨7⟩]⟩]⟩, Outcome.returned) ∈
      (applyOpWithListeners (emptyStore none 0) [⟨1, true⟩, ⟨2, false⟩]
        (.balance [⟨7⟩])).2 :=
  ⟨(c8_listener_isolation.1 (emptyStore none 0) [⟨1, true⟩, ⟨2, false⟩]
      (.balance [⟨7⟩])).1,
   (c8_listener_isolation.1 (emptyStore none 0) [⟨1, true⟩, ⟨2, false⟩]
      (.balance [⟨7⟩])).2 ⟨2, false⟩ (by decide) rfl _ (by decide)⟩

/-! ### Additional map and trim structural lemmas -/

theorem mem_mapSet_ne {α : Type} (m : List (Timestamped α)) (e x : Timestamped α)
    (h : x ∈ mapSet m e) (hne : x ≠ e) : x ∈ m ∧ ¬ x.id = e.id := by
  unfold mapSet at h
  split at h
  · obtain ⟨y, hy, hyx⟩ := List.mem_map.1 h
    by_cases hc : y.id = e.id
    · rw [if_pos hc] at hyx
      exact absurd hyx.symm hne
    · rw [if_neg hc] at hyx
      subst hyx
      exact ⟨hy, hc⟩
  · rename_i hno
    rcases List.mem_append.1 h with hm2 | hm2
    · refine ⟨hm2, fun hid => ?_⟩
      apply hno
      rw [List.any_eq_true]
      exact ⟨x, hm2, by simp [hid]⟩
    · exact absurd (List.mem_singleton.1 hm2) hne

theorem mem_mapSet_of_ne {α : Type} (m : List (Timestamped α)) (e x : Timestamped α)
    (hx : x ∈ m) (hne : ¬ x.id = e.id) : x ∈ mapSet m e := by
  unfold mapSet
  split
  · exact List.mem_map.2 ⟨x, hx, by rw [if_neg hne]⟩
  · exact List.mem_append_left _ hx

theorem mapSet_length_ge {α : Type} (m : List (Timestamped α)) (e : Timestamped α) :
    m.length ≤ (mapSet m e).length := by
  unfold mapSet
  split
  · simp
  · simp

theorem foldl_mapSet_subset {α : Type} :
    ∀ (l acc : List (Timestamped α)) (x : Timestamped α),
      x ∈ List.foldl mapSet acc l → x ∈ acc ∨ x ∈ l
  | [], acc, x, h => Or.inl h
  | e :: t, acc, x, h => by
    rcases foldl_mapSet_subset t (mapSet acc e) x h with hm | hm
    · rcases mem_mapSet_elim acc e x hm with heq | hm2
      · exact Or.inr (heq ▸ List.mem_cons_self e t)
      · exact Or.inl hm2
    · exact Or.inr (List.mem_cons_of_mem e hm)

theorem trimMap_subset (m : List (Timestamped ChannelUpdate))
    (x : Timestamped ChannelUpdate) (h : x ∈ trimMap m) : x ∈ m := by
  unfold trimMap at h
  split at h
  · exact h
  · rcases foldl_mapSet_subset _ [] x h with hm | hm
    · exact absurd hm (List.not_mem_nil x)
    · exact (sortByNewest_perm m).mem_iff.1 (List.mem_of_mem_take hm)

theorem trimMap_ids_nodup (m : List (Timestamped ChannelUpdate))
    (hid : (m.map (fun e => e.id)).Nodup) :
    ((trimMap m).map (fun e => e.id)).Nodup := by
  by_cases h : m.length ≤ MAX_ENTRIES
  · rw [trimMap_of_le m h]; exact hid
  · rw [trimMap_of_gt m h hid]
    have hperm : ((sortByNewest m).map (fun e => e.id)).Nodup :=
      (((sortByNewest_perm m).map _).nodup_iff).2 hid
    exact hperm.sublist ((List.take_sublist _ _).map _)

theorem trimMap_ts_nodup (m : List (Timestamped ChannelUpdate))
    (hid : (m.map (fun e => e.id)).Nodup)
    (hts : (m.map (fun e => e.updatedAt)).Nodup) :
    ((trimMap m).map (fun e => e.updatedAt)).Nodup := by
  by_cases h : m.length ≤ MAX_ENTRIES
  · rw [trimMap_of_le m h]; exact hts
  · rw [trimMap_of_gt m h hid]
    have hperm : ((sortByNewest m).map (fun e => e.updatedAt)).Nodup :=
      (((sortByNewest_perm m).map _).nodup_iff).2 hts
    exact hperm.sublist ((List.take_sublist _ _).map _)

theorem mapSet_ts_nodup {α : Type} (m : List (Timestamped α)) (e : Timestamped α)
    (hid : (m.map (fun x => x.id)).Nodup)
    (hts : (m.map (fun x => x.updatedAt)).Nodup)
    (hlt : ∀ x ∈ m, x.updatedAt < e.updatedAt) :
    ((mapSet m e).map (fun x => x.updatedAt)).Nodup := by
  unfold mapSet
  split
  · rw [List.map_map, List.Nodup, List.pairwise_map]
    rw [List.Nodup, List.pairwise_map] at hid hts
    refine List.Pairwise.imp_of_mem ?_ (hid.and hts)
    intro a b ha hb hab
    obtain ⟨hne_id, hne_ts⟩ := hab
    by_cases hca : a.id = e.id <;> by_cases hcb : b.id = e.id
    · exact absurd (hca.trans hcb.symm) hne_id
    · have := hlt b hb
      simp only [Function.comp, hca, hcb, if_pos, if_neg]
      simp [hca, hcb]
      omega
    · have := hlt a ha
      simp only [Function.comp]
      simp [hca, hcb]
      omega
    · simp only [Function.comp]
      simp [hca, hcb]
      exact hne_ts
  · rw [List.map_append, List.nodup_append]
    refine ⟨hts, List.nodup_singleton _, ?_⟩
    intro a ha hb
    simp only [List.map_cons, List.map_nil, List.mem_singleton] at hb
    subst hb
    obtain ⟨x, hx, hxe⟩ := List.mem_map.1 ha
    have := hlt x hx
    omega

theorem trimArray_of_le {α : Type} (l : List (Timestamped α))
    (h : l.length ≤ MAX_ENTRIES) : trimArray l = l := by
  unfold trimArray
  rw [if_pos h]

theorem trimArray_of_gt {α : Type} (l : List (Timestamped α))
    (h : ¬ l.length ≤ MAX_ENTRIES) : trimArray l = l.take MAX_ENTRIES := by
  unfold trimArray
  rw [if_neg h]

theorem trimArray_subset {α : Type} (l : List (Timestamped α))
    (x : Timestamped α) (h : x ∈ trimArray l) : x ∈ l := by
  unfold trimArray at h
  split at h
  · exact h
  · exact List.mem_of_mem_take h

theorem trimArray_cons_self_mem {α : Type} (e : Timestamped α)
    (l : List (Timestamped α)) : e ∈ trimArray (e :: l) := by
  by_cases h : (e :: l).length ≤ MAX_ENTRIES
  · rw [trimArray_of_le _ h]
    exact List.mem_cons_self e l
  · rw [trimArray_of_gt _ h, show MAX_ENTRIES = 99 + 1 from rfl,
      List.take_succ_cons]
    exact List.mem_cons_self e _

theorem trimArray_pairwise {α : Type} (l : List (Timestamped α))
    (h : l.Pairwise (fun a b => b.updatedAt < a.updatedAt)) :
    (trimArray l).Pairwise (fun a b => b.updatedAt < a.updatedAt) := by
  unfold trimArray
  split
  · exact h
  · exact h.sublist (List.take_sublist _ _)

theorem trimArray_dropped {α : Type} (l : List (Timestamped α))
    (x : Timestamped α)
    (hstrict : l.Pairwise (fun a b => b.updatedAt < a.updatedAt))
    (hx : x ∈ l) (hnx : x ∉ trimArray l) :
    MAX_ENTRIES ≤ (trimArray l).length ∧
    ∀ y ∈ trimArray l, x.updatedAt < y.updatedAt := by
  by_cases h : l.length ≤ MAX_ENTRIES
  · rw [trimArray_of_le _ h] at hnx
    exact absurd hx hnx
  · rw [trimArray_of_gt _ h] at hnx ⊢
    constructor
    · rw [List.length_take]
      omega
    · intro y hy
      have hsplit := List.take_append_drop MAX_ENTRIES l
      rw [← hsplit] at hstrict
      rw [List.pairwise_append] at hstrict
      have hxd : x ∈ l.drop MAX_ENTRIES := by
        rcases List.mem_append.1 (hsplit ▸ hx) with hm | hm
        · exact absurd hm hnx
        · exact hm
      exact hstrict.2.2 y hy x hxd

theorem trimMap_evicted (m : List (Timestamped ChannelUpdate))
    (x : Timestamped ChannelUpdate)
    (hid : (m.map (fun e => e.id)).Nodup)
    (hts : (m.map (fun e => e.updatedAt)).Nodup)
    (hx : x ∈ m) (hnx : x ∉ trimMap m) :
    ∀ y ∈ trimMap m, x.updatedAt < y.updatedAt := by
  by_cases h : m.length ≤ MAX_ENTRIES
  · rw [trimMap_of_le m h] at hnx
    exact absurd hx hnx
  · rw [trimMap_of_gt m h hid] at hnx ⊢
    intro y hy
    have hndts : ((sortByNewest m).map (fun e => e.updatedAt)).Nodup :=
      (((sortByNewest_perm m).map _).nodup_iff).2 hts
    have hstrict : (sortByNewest m).Pairwise
        (fun a b => b.updatedAt < a.updatedAt) :=
      pairwise_strict_of_nodup _ _ (sortDescBy_pairwise _ _) hndts
    have hsplit := List.take_append_drop MAX_ENTRIES (sortByNewest m)
    rw [← hsplit] at hstrict
    rw [List.pairwise_append] at hstrict
    have hxs : x ∈ sortByNewest m := (sortByNewest_perm m).mem_iff.2 hx
    have hxd : x ∈ (sortByNewest m).drop MAX_ENTRIES := by
      rcases List.mem_append.1 (hsplit ▸ hxs) with hm | hm
      · exact absurd hm hnx
      · exact hm
    exact hstrict.2.2 y hy x hxd

theorem trimMap_gt_spec (m : List (Timestamped ChannelUpdate))
    (hid : (m.map (fun e => e.id)).Nodup)
    (hts : (m.map (fun e => e.updatedAt)).Nodup)
    (hlen : MAX_ENTRIES < m.length) :
    (trimMap m).length = MAX_ENTRIES ∧
    ∀ e ∈ m, (e ∈ trimMap m ↔
      (m.filter (fun x => e.updatedAt < x.updatedAt)).length < MAX_ENTRIES) := by
  have hgt : ¬ m.length ≤ MAX_ENTRIES := by omega
  have hperm : (sortByNewest m).Perm m := sortByNewest_perm m
  have hndts : ((sortByNewest m).map (fun e => e.updatedAt)).Nodup :=
    ((hperm.map _).nodup_iff).2 hts
  have hstrict : (sortByNewest m).Pairwise
      (fun a b => b.updatedAt < a.updatedAt) :=
    pairwise_strict_of_nodup _ _ (sortDescBy_pairwise _ _) hndts
  rw [trimMap_of_gt m hgt hid]
  constructor
  · rw [List.length_take]
    have : (sortByNewest m).length = m.length := hperm.length_eq
    omega
  · intro e he
    have hel : e ∈ sortByNewest m := hperm.mem_iff.2 he
    rw [mem_take_iff_count (fun x => x.updatedAt) (sortByNewest m)
      hstrict MAX_ENTRIES e hel]
    rw [filter_length_perm (fun x => decide (e.updatedAt < x.updatedAt)) hperm]

theorem nodup_map_mem_inj {α β : Type} (l : List α) (f : α → β)
    (h : (l.map f).Nodup) {a b : α} (ha : a ∈ l) (hb : b ∈ l)
    (hf : f a = f b) : a = b :=
  List.inj_on_of_nodup_map h ha hb hf

/-! ### Working-set bound lemmas -/

theorem recordBalanceUpdate_balanceUpdates (s : StoreState) (bs : List Balance) :
    (recordBalanceUpdate s bs).1.balanceUpdates =
      trimArray (⟨.uuid s.nextUuid, s.clock, bs⟩ :: s.balanceUpdates) :=
  congrArg MemView.balanceUpdates (recordBalanceUpdate_memView s bs)

theorem recordBalanceUpdate_channelUpdates (s : StoreState) (bs : List Balance) :
    (recordBalanceUpdate s bs).1.channelUpdates = s.channelUpdates :=
  congrArg MemView.channelUpdates (recordBalanceUpdate_memView s bs)

theorem recordBalanceUpdate_channelUpdateHistory (s : StoreState) (bs : List Balance) :
    (recordBalanceUpdate s bs).1.channelUpdateHistory = s.channelUpdateHistory :=
  congrArg MemView.channelUpdateHistory (recordBalanceUpdate_memView s bs)

theorem recordChannelsUpdate_balanceUpdates (s : StoreState) (us : List ChannelUpdate) :
    (recordChannelsUpdate s us).1.balanceUpdates = s.balanceUpdates := by
  simp only [recordChannelsUpdate, persistEvents_balanceUpdates]
  rw [(recordChannelsFanout_frame us _).2.1]

theorem recordChannelsUpdate_channelUpdates_eq (s : StoreState) (us : List ChannelUpdate) :
    (recordChannelsUpdate s us).1.channelUpdates =
      (recordChannelsFanout (batchMidState s us) us).1.channelUpdates := by
  simp only [recordChannelsUpdate, persistEvents_channelUpdates, batchMidState]

theorem recordChannelsFanout_channelUpdates_le (us : List ChannelUpdate) :
    ∀ (s : StoreState), s.channelUpdates.length ≤ MAX_ENTRIES →
      (recordChannelsFanout s us).1.channelUpdates.length ≤ MAX_ENTRIES := by
  induction us with
  | nil => intro s h; exact h
  | cons u rest ih =>
    intro s _
    simp only [recordChannelsFanout]
    apply ih
    rw [recordChannelUpdate_channelUpdates]
    exact trimMap_length_le _

theorem applyOp_sizes (s : StoreState) (op : StoreOp)
    (h1 : s.channelUpdates.length ≤ MAX_ENTRIES)
    (h2 : s.channelUpdateHistory.length ≤ MAX_ENTRIES)
    (h3 : s.balanceUpdates.length ≤ MAX_ENTRIES) :
    (applyOp s op).1.channelUpdates.length ≤ MAX_ENTRIES ∧
    (applyOp s op).1.channelUpdateHistory.length ≤ MAX_ENTRIES ∧
    (applyOp s op).1.balanceUpdates.length ≤ MAX_ENTRIES := by
  cases op with
  | channel u =>
    refine ⟨?_, ?_, ?_⟩
    · rw [show (applyOp s (.channel u)).1 = (recordChannelUpdate s u).1 from rfl,
        recordChannelUpdate_channelUpdates]
      exact trimMap_length_le _
    · rw [show (applyOp s (.channel u)).1 = (recordChannelUpdate s u).1 from rfl,
        recordChannelUpdate_channelUpdateHistory]
      exact h2
    · rw [show (applyOp s (.channel u)).1 = (recordChannelUpdate s u).1 from rfl,
        recordChannelUpdate_balanceUpdates]
      exact h3
  | channels us =>
    refine ⟨?_, ?_, ?_⟩
    · rw [show (applyOp s (.channels us)).1 = (recordChannelsUpdate s us).1 from rfl,
        recordChannelsUpdate_channelUpdates_eq]
      exact recordChannelsFanout_channelUpdates_le us _ h1
    · rw [show (applyOp s (.channels us)).1 = (recordChannelsUpdate s us).1 from rfl,
        recordChannelsUpdate_channelUpdateHistory]
      exact trimArray_length_le _
    · rw [show (applyOp s (.channels us)).1 = (recordChannelsUpdate s us).1 from rfl,
        recordChannelsUpdate_balanceUpdates]
      exact h3
  | balance bs =>
    refine ⟨?_, ?_, ?_⟩
    · rw [show (applyOp s (.balance bs)).1 = (recordBalanceUpdate s bs).1 from rfl,
        recordBalanceUpdate_channelUpdates]
      exact h1
    · rw [show (applyOp s (.balance bs)).1 = (recordBalanceUpdate s bs).1 from rfl,
        recordBalanceUpdate_channelUpdateHistory]
      exact h2
    · rw [show (applyOp s (.balance bs)).1 = (recordBalanceUpdate s bs).1 from rfl,
        recordBalanceUpdate_balanceUpdates]
      exact trimArray_length_le _

/-- C4: after every sequence of record operations the live channel map, the
batches history and the balances history each hold at most `MAX_ENTRIES`
(100) entries; and whenever the channel map is over capacity, the trim keeps
exactly `MAX_ENTRIES` entries and an entry survives if and only if fewer than
`MAX_ENTRIES` entries are strictly newer - i.e. exactly the oldest entries
are dropped. -/
theorem c4_bounded_working_set :
    (∀ (s : StoreState) (ops : List StoreOp),
      s.channelUpdates.length ≤ MAX_ENTRIES →
      s.channelUpdateHistory.length ≤ MAX_ENTRIES →
      s.balanceUpdates.length ≤ MAX_ENTRIES →
      (runOps s ops).channelUpdates.length ≤ MAX_ENTRIES ∧
      (runOps s ops).channelUpdateHistory.length ≤ MAX_ENTRIES ∧
      (runOps s ops).balanceUpdates.length ≤ MAX_ENTRIES) ∧
    (∀ (m : List (Timestamped ChannelUpdate)),
      (m.map (fun e => e.id)).Nodup →
      (m.map (fun e => e.updatedAt)).Nodup →
      MAX_ENTRIES < m.length →
      (trimMap m).length = MAX_ENTRIES ∧
      ∀ e ∈ m, (e ∈ trimMap m ↔
        (m.filter (fun x => e.updatedAt < x.updatedAt)).length < MAX_ENTRIES)) := by
  constructor
  · intro s ops
    induction ops generalizing s with
    | nil => intro h1 h2 h3; exact ⟨h1, h2, h3⟩
    | cons op rest ih =>
      intro h1 h2 h3
      obtain ⟨g1, g2, g3⟩ := applyOp_sizes s op h1 h2 h3
      rw [runOps_cons]
      exact ih _ g1 g2 g3
  · intro m hid hts hlen
    exact trimMap_gt_spec m hid hts hlen

/-- C4 witness: the bounds after one concrete operation, and the trim
characterisation at a concrete 101-entry map, where the oldest entry is
exactly the one dropped. -/
theorem c4_bounded_working_set_witness :
    (runOps (emptyStore none 0) [.channel chan1Update]).channelUpdates.length
      ≤ MAX_ENTRIES ∧
    ((trimMap c4TestMap).length = MAX_ENTRIES ∧
      ((⟨.uuid 0, 0, ChannelUpdate.notObj⟩ : Timestamped ChannelUpdate)
          ∈ trimMap c4TestMap ↔
        (c4TestMap.filter (fun x => 0 < x.updatedAt)).length < MAX_ENTRIES)) :=
  ⟨(c4_bounded_working_set.1 (emptyStore none 0) [.channel chan1Update]
      (by decide) (by decide) (by decide)).1,
   (c4_bounded_working_set.2 c4TestMap (by decide) (by decide) (by decide)).1,
   (c4_bounded_working_set.2 c4TestMap (by decide) (by decide) (by decide)).2
     ⟨.uuid 0, 0, ChannelUpdate.notObj⟩ (by decide)⟩

/-! ### Repository lemmas for writable, retention-free repositories -/

theorem repoTrim_noop (r : RepoState) (now : Nat) (hret : r.retentionMs = 0)
    (hlen : r.rows.length ≤ r.maxRows) : repoTrim r now = r := by
  simp only [repoTrim]
  rw [if_neg (by omega), if_neg (by omega)]

theorem mem_repoUpsert (rows : List ChannelEventRow) (ρ row : ChannelEventRow) :
    row ∈ repoUpsert rows ρ ↔ row = ρ ∨ (row ∈ rows ∧ ¬ row.id = ρ.id) := by
  unfold repoUpsert
  rw [List.mem_append, List.mem_filter, List.mem_singleton]
  simp only [decide_not, Bool.not_eq_true', decide_eq_false_iff_not]
  tauto

theorem repoUpsert_length_le (rows : List ChannelEventRow) (ρ : ChannelEventRow) :
    (repoUpsert rows ρ).length ≤ rows.length + 1 := by
  unfold repoUpsert
  rw [List.length_append]
  have := List.length_filter_le (fun x => decide (¬ x.id = ρ.id)) rows
  simp only [List.length_singleton]
  omega

theorem repoUpsert_ids_nodup (rows : List ChannelEventRow) (ρ : ChannelEventRow)
    (h : (rows.map (fun x => x.id)).Nodup) :
    ((repoUpsert rows ρ).map (fun x => x.id)).Nodup := by
  unfold repoUpsert
  rw [List.map_append, List.nodup_append]
  refine ⟨(h.sublist ((List.filter_sublist _).map _)), List.nodup_singleton _, ?_⟩
  intro a ha hb
  simp only [List.map_cons, List.map_nil, List.mem_singleton] at hb
  subst hb
  obtain ⟨x, hx, hxe⟩ := List.mem_map.1 ha
  rw [List.mem_filter] at hx
  simp only [decide_not, Bool.not_eq_true', decide_eq_false_iff_not] at hx
  exact hx.2 hxe

theorem repoUpsert_ts_nodup (rows : List ChannelEventRow) (ρ : ChannelEventRow)
    (h : (rows.map (fun x => x.occurredAt)).Nodup)
    (hlt : ∀ row ∈ rows, row.occurredAt < ρ.occurredAt) :
    ((repoUpsert rows ρ).map (fun x => x.occurredAt)).Nodup := by
  unfold repoUpsert
  rw [List.map_append, List.nodup_append]
  refine ⟨(h.sublist ((List.filter_sublist _).map _)), List.nodup_singleton _, ?_⟩
  intro a ha hb
  simp only [List.map_cons, List.map_nil, List.mem_singleton] at hb
  subst hb
  obtain ⟨x, hx, hxe⟩ := List.mem_map.1 ha
  rw [List.mem_filter] at hx
  have := hlt x hx.1
  omega

theorem persistEvents_one (s : StoreState) (r : RepoState) (ρ : ChannelEventRow)
    (hr : s.repo = some r) (hf : r.failing = false) (hret : r.retentionMs = 0)
    (hlen : (repoUpsert r.rows ρ).length ≤ r.maxRows) :
    persistEvents s [ρ] = { s with repo := some { r with rows := repoUpsert r.rows ρ } } := by
  simp only [persistEvents, hr]
  rw [if_neg (by simp), if_neg (by simp [hf])]
  have : repoPersist r s.clock [ρ] = { r with rows := repoUpsert r.rows ρ } := by
    unfold repoPersist
    have hfold : [ρ].foldl repoUpsert r.rows = repoUpsert r.rows ρ := rfl
    rw [hfold]
    exact repoTrim_noop _ _ hret hlen
  rw [this]

/-! ### Invariant preservation: single channel update -/

theorem recordChannelUpdate_state (s : StoreState) (r : RepoState)
    (u : ChannelUpdate) (hr : s.repo = some r) (hf : r.failing = false)
    (hret : r.retentionMs = 0)
    (hlen : (repoUpsert r.rows (channelRow u s.clock)).length ≤ r.maxRows) :
    (recordChannelUpdate s u).1 =
      { s with
        clock := s.clock + 1
        channelUpdates :=
          trimMap (mapSet s.channelUpdates
            ⟨.chan (normaliseChannelId u), s.clock, u⟩)
        repo := some (chanUpsertRepo r u s.clock) } := by
  obtain ⟨cu, hh, bb, rep, clk, nu⟩ := s
  simp only at hr
  subst hr
  simp only [recordChannelUpdate]
  exact persistEvents_one _ r (channelRow u clk) rfl hf hret hlen

theorem invCore_preserve_channel (s : StoreState) (r : RepoState)
    (u : ChannelUpdate) (hinv : InvCore s r)
    (hb : r.rows.length + 1 ≤ r.maxRows) :
    InvCore (recordChannelUpdate s u).1 (chanUpsertRepo r u s.clock) ∧
    (chanUpsertRepo r u s.clock).rows.length ≤ r.rows.length + 1 ∧
    (chanUpsertRepo r u s.clock).maxRows = r.maxRows ∧
    (chanUpsertRepo r u s.clock).failing = r.failing ∧
    (chanUpsertRepo r u s.clock).retentionMs = r.retentionMs ∧
    (∀ row : ChannelEventRow, ¬ row.rtype = RowType.channel →
      (row ∈ (chanUpsertRepo r u s.clock).rows ↔ row ∈ r.rows)) ∧
    (∀ row ∈ (chanUpsertRepo r u s.clock).rows,
      row ∈ r.rows ∨ row.occurredAt = s.clock) := by
  obtain ⟨hrepo, hmeta, hchan⟩ := hinv
  obtain ⟨hfail, hret, hidnd, htsnd, hrowlt, htyping⟩ := hmeta
  obtain ⟨hcorr, habs, hmlen, hmid, hmts, hmlt⟩ := hchan
  have hulen : (repoUpsert r.rows (channelRow u s.clock)).length ≤ r.maxRows :=
    le_trans (repoUpsert_length_le _ _) (by omega)
  have hstate := recordChannelUpdate_state s r u hrepo hfail hret hulen
  have hρocc : (channelRow u s.clock).occurredAt = s.clock := rfl
  have hρid : (channelRow u s.clock).id = .chan (normaliseChannelId u) := rfl
  have hρtype : (channelRow u s.clock).rtype = RowType.channel := rfl
  -- shared facts about the new map
  have hm'id : ((mapSet s.channelUpdates
      ⟨.chan (normaliseChannelId u), s.clock, u⟩).map (fun e => e.id)).Nodup :=
    mapSet_nodup_ids _ _ hmid
  have hm'ts : ((mapSet s.channelUpdates
      ⟨.chan (normaliseChannelId u), s.clock, u⟩).map (fun e => e.updatedAt)).Nodup :=
    mapSet_ts_nodup _ _ hmid hmts hmlt
  have hself : (⟨.chan (normaliseChannelId u), s.clock, u⟩ :
      Timestamped ChannelUpdate) ∈
      trimMap (mapSet s.channelUpdates ⟨.chan (normaliseChannelId u), s.clock, u⟩) := by
    apply mem_trimMap_newest
    · exact mem_mapSet_self _ _
    · intro x hx
      rcases mem_mapSet_elim _ _ x hx with heq | hm
      · exact Or.inl heq
      · exact Or.inr (hmlt x hm)
    · exact mapSet_nodup_ids _ _ hmid
  refine ⟨⟨?_, ?_, ?_⟩, le_trans (le_of_eq rfl) (repoUpsert_length_le _ _),
    rfl, rfl, rfl, ?_, ?_⟩
  · -- repo attached
    rw [hstate]
  · -- InvMeta
    refine ⟨hfail, hret, repoUpsert_ids_nodup _ _ hidnd,
      repoUpsert_ts_nodup _ _ htsnd hrowlt, ?_, ?_⟩
    · intro row hrow
      rw [hstate]
      show row.occurredAt < s.clock + 1
      rcases (mem_repoUpsert r.rows _ row).1 hrow with hρ | ⟨hrold, _⟩
      · rw [hρ]; omega
      · have := hrowlt row hrold; omega
    · intro row hrow
      rcases (mem_repoUpsert r.rows _ row).1 hrow with hρ | ⟨hrold, _⟩
      · subst hρ
        refine ⟨fun _ => ⟨u, rfl⟩, fun hc => absurd hc (by simp [channelRow]),
          fun hc => absurd hc (by simp [channelRow])⟩
      · obtain ⟨h1, h2, h3⟩ := htyping row hrold
        refine ⟨h1, ?_, ?_⟩
        · intro hc
          obtain ⟨n, us, hrw, hn⟩ := h2 hc
          refine ⟨n, us, hrw, ?_⟩
          rw [hstate]
          show n < s.nextUuid
          exact hn
        · intro hc
          obtain ⟨n, bs, hrw, hn⟩ := h3 hc
          refine ⟨n, bs, hrw, ?_⟩
          rw [hstate]
          show n < s.nextUuid
          exact hn
  · -- InvChan
    rw [hstate]
    refine ⟨?_, ?_, ?_, ?_, ?_, ?_⟩
    · -- correspondence
      intro x hx
      show channelRow x.payload x.updatedAt ∈
        (chanUpsertRepo r u s.clock).rows ∧ x.id = .chan (normaliseChannelId x.payload)
      have hx' := trimMap_subset _ x hx
      by_cases hxe : x = ⟨.chan (normaliseChannelId u), s.clock, u⟩
      · subst hxe
        exact ⟨(mem_repoUpsert _ _ _).2 (Or.inl rfl), rfl⟩
      · obtain ⟨hxm, hxid⟩ := mem_mapSet_ne _ _ x hx' hxe
        obtain ⟨hxrow, hxkey⟩ := hcorr x hxm
        refine ⟨(mem_repoUpsert _ _ _).2 (Or.inr ⟨hxrow, ?_⟩), hxkey⟩
        show ¬ (channelRow x.payload x.updatedAt).id = (channelRow u s.clock).id
        intro hcontr
        exact hxid (by rw [hxkey]; exact hcontr)
    · -- absent channel rows are older than the whole map
      intro row hrow hrtype hnotin
      rcases (mem_repoUpsert r.rows _ row).1 hrow with hρ | ⟨hrold, hridne⟩
      · exfalso
        apply hnotin
        subst hρ
        exact List.mem_map.2 ⟨_, hself, rfl⟩
      · by_cases hidin : row.id ∈ s.channelUpdates.map (fun e => e.id)
        · obtain ⟨x, hx, hxid⟩ := List.mem_map.1 hidin
          have hxid2 : x.id = row.id := hxid
          obtain ⟨hxrow, hxkey⟩ := hcorr x hx
          have hroweq : row = channelRow x.payload x.updatedAt := by
            apply nodup_map_mem_inj r.rows (fun z => z.id) hidnd hrold hxrow
            show row.id = (channelRow x.payload x.updatedAt).id
            rw [← hxid2, hxkey]
            rfl
          have hrocc : row.occurredAt = x.updatedAt := by rw [hroweq]; rfl
          have hxm' : x ∈ mapSet s.channelUpdates
              ⟨.chan (normaliseChannelId u), s.clock, u⟩ := by
            apply mem_mapSet_of_ne _ _ _ hx
            show ¬ x.id = EntryId.chan (normaliseChannelId u)
            intro hxe
            apply hridne
            show row.id = (channelRow u s.clock).id
            rw [← hxid2, hxe]
            rfl
          have hxnot : x ∉ trimMap (mapSet s.channelUpdates
              ⟨.chan (normaliseChannelId u), s.clock, u⟩) := by
            intro hxin
            exact hnotin (List.mem_map.2 ⟨x, hxin, hxid2⟩)
          have hev := trimMap_evicted _ x hm'id hm'ts hxm' hxnot
          constructor
          · by_cases hlen' : (mapSet s.channelUpdates
                ⟨.chan (normaliseChannelId u), s.clock, u⟩).length ≤ MAX_ENTRIES
            · rw [trimMap_of_le _ hlen'] at hxnot
              exact absurd hxm' hxnot
            · rw [(trimMap_gt_spec _ hm'id hm'ts (by omega)).1]
          · intro y hy
            rw [hrocc]
            exact hev y hy
        · obtain ⟨hmax, hold⟩ := habs row hrold hrtype hidin
          constructor
          · by_cases hlen' : (mapSet s.channelUpdates
                ⟨.chan (normaliseChannelId u), s.clock, u⟩).length ≤ MAX_ENTRIES
            · rw [trimMap_of_le _ hlen']
              exact le_trans hmax (mapSet_length_ge _ _)
            · rw [(trimMap_gt_spec _ hm'id hm'ts (by omega)).1]
          · intro y hy
            have hy' := trimMap_subset _ y hy
            rcases mem_mapSet_elim _ _ y hy' with heq | hym
            · rw [heq]
              exact hrowlt row hrold
            · exact hold y hym
    · exact trimMap_length_le _
    · exact trimMap_ids_nodup _ hm'id
    · exact trimMap_ts_nodup _ hm'id hm'ts
    · intro y hy
      show y.updatedAt < s.clock + 1
      have hy' := trimMap_subset _ y hy
      rcases mem_mapSet_elim _ _ y hy' with heq | hym
      · rw [heq]
        show s.clock < s.clock + 1
        omega
      · have := hmlt y hym; omega
  · -- non-channel rows are untouched
    intro row hnt
    constructor
    · intro hrow
      rcases (mem_repoUpsert r.rows _ row).1 hrow with hρ | ⟨hrold, _⟩
      · exact absurd (by rw [hρ]; rfl) hnt
      · exact hrold
    · intro hrow
      refine (mem_repoUpsert r.rows _ row).2 (Or.inr ⟨hrow, ?_⟩)
      intro hid
      obtain ⟨h1, h2, h3⟩ := htyping row hrow
      cases hrt : row.rtype with
      | channel => exact hnt hrt
      | channels =>
        obtain ⟨n, us, hrw, _⟩ := h2 hrt
        rw [hrw] at hid
        exact EntryId.noConfusion hid
      | balance =>
        obtain ⟨n, bs, hrw, _⟩ := h3 hrt
        rw [hrw] at hid
        exact EntryId.noConfusion hid
  · -- new rows are stamped now
    intro row hrow
    rcases (mem_repoUpsert r.rows _ row).1 hrow with hρ | ⟨hrold, _⟩
    · exact Or.inr (by rw [hρ]; rfl)
    · exact Or.inl hrold


/-! ### Invariant preservation: fan-out -/

theorem invCore_mono (s s' : StoreState) (r : RepoState)
    (hrepo : s'.repo = some r)
    (hcu : s'.channelUpdates = s.channelUpdates)
    (hck : s.clock ≤ s'.clock)
    (hnu : s.nextUuid ≤ s'.nextUuid)
    (hinv : InvCore s r) : InvCore s' r := by
  obtain ⟨_, ⟨hfail, hret, hidnd, htsnd, hrowlt, htyping⟩,
    ⟨hcorr, habs, hmlen, hmid, hmts, hmlt⟩⟩ := hinv
  refine ⟨hrepo, ⟨hfail, hret, hidnd, htsnd, ?_, ?_⟩,
    ?_, ?_, ?_, ?_, ?_, ?_⟩
  · intro row hrow
    exact lt_of_lt_of_le (hrowlt row hrow) hck
  · intro row hrow
    obtain ⟨h1, h2, h3⟩ := htyping row hrow
    refine ⟨h1, ?_, ?_⟩
    · intro hc
      obtain ⟨n, us, hrw, hn⟩ := h2 hc
      exact ⟨n, us, hrw, lt_of_lt_of_le hn hnu⟩
    · intro hc
      obtain ⟨n, bs, hrw, hn⟩ := h3 hc
      exact ⟨n, bs, hrw, lt_of_lt_of_le hn hnu⟩
  · rw [hcu]; exact hcorr
  · rw [hcu]; exact habs
  · rw [hcu]; exact hmlen
  · rw [hcu]; exact hmid
  · rw [hcu]; exact hmts
  · rw [hcu]
    intro e he
    exact lt_of_lt_of_le (hmlt e he) hck

theorem invCore_preserve_fanout :
    ∀ (us : List ChannelUpdate) (s : StoreState) (r : RepoState),
      InvCore s r → r.rows.length + us.length ≤ r.maxRows →
      ∃ r2 : RepoState,
        InvCore (recordChannelsFanout s us).1 r2 ∧
        r2.rows.length ≤ r.rows.length + us.length ∧
        r2.maxRows = r.maxRows ∧
        r2.failing = r.failing ∧
        r2.retentionMs = r.retentionMs ∧
        (∀ row : ChannelEventRow, ¬ row.rtype = RowType.channel →
          (row ∈ r2.rows ↔ row ∈ r.rows)) ∧
        (∀ row ∈ r2.rows, row ∈ r.rows ∨ s.clock ≤ row.occurredAt) ∧
        s.clock ≤ (recordChannelsFanout s us).1.clock ∧
        (recordChannelsFanout s us).1.nextUuid = s.nextUuid ∧
        (recordChannelsFanout s us).1.channelUpdateHistory =
          s.channelUpdateHistory ∧
        (recordChannelsFanout s us).1.balanceUpdates = s.balanceUpdates
  | [], s, r, hinv, _ => ⟨r, hinv, by simp, rfl, rfl, rfl,
      fun _ _ => Iff.rfl, fun _ h => Or.inl h, Nat.le_refl _, rfl, rfl, rfl⟩
  | u :: rest, s, r, hinv, hbudget => by
    have hb1 : r.rows.length + 1 ≤ r.maxRows := by
      simp only [List.length_cons] at hbudget
      omega
    obtain ⟨hc1, hlen1, hmax1, hfail1, hret1, hiff1, hstamp1⟩ :=
      invCore_preserve_channel s r u hinv hb1
    have hbud2 : (chanUpsertRepo r u s.clock).rows.length + rest.length ≤
        (chanUpsertRepo r u s.clock).maxRows := by
      rw [hmax1]
      simp only [List.length_cons] at hbudget
      omega
    obtain ⟨r2, hc2, hlen2, hmax2, hfail2, hret2, hiff2, hstamp2, hck2, hnu2,
      hhist2, hbal2⟩ :=
      invCore_preserve_fanout rest (recordChannelUpdate s u).1
        (chanUpsertRepo r u s.clock) hc1 hbud2
    have hfst : (recordChannelsFanout s (u :: rest)).1 =
        (recordChannelsFanout (recordChannelUpdate s u).1 rest).1 := rfl
    have hck1 : (recordChannelUpdate s u).1.clock = s.clock + 1 :=
      recordChannelUpdate_clock s u
    refine ⟨r2, ?_, ?_, ?_, ?_, ?_, ?_, ?_, ?_, ?_, ?_, ?_⟩
    · rw [hfst]; exact hc2
    · simp only [List.length_cons]
      omega
    · rw [hmax2]; exact hmax1
    · rw [hfail2]; exact hfail1
    · rw [hret2]; exact hret1
    · intro row hnt
      exact (hiff2 row hnt).trans (hiff1 row hnt)
    · intro row hrow
      rcases hstamp2 row hrow with hin1 | hge
      · rcases hstamp1 row hin1 with hold | heq
        · exact Or.inl hold
        · exact Or.inr (le_of_eq heq.symm)
      · rw [hck1] at hge
        exact Or.inr (by omega)
    · rw [hfst]
      omega
    · rw [hfst, hnu2]
      exact recordChannelUpdate_nextUuid s u
    · rw [hfst, hhist2]
      exact recordChannelUpdate_channelUpdateHistory s u
    · rw [hfst, hbal2]
      exact recordChannelUpdate_balanceUpdates s u

/-! ### Invariant preservation: histories and uuid-keyed rows -/

theorem repoUpsert_ts_nodup_ne (rows : List ChannelEventRow) (ρ : ChannelEventRow)
    (h : (rows.map (fun x => x.occurredAt)).Nodup)
    (hne : ∀ row ∈ rows, ¬ row.occurredAt = ρ.occurredAt) :
    ((repoUpsert rows ρ).map (fun x => x.occurredAt)).Nodup := by
  unfold repoUpsert
  rw [List.map_append, List.nodup_append]
  refine ⟨(h.sublist ((List.filter_sublist _).map _)), List.nodup_singleton _, ?_⟩
  intro a ha hb
  simp only [List.map_cons, List.map_nil, List.mem_singleton] at hb
  subst hb
  obtain ⟨x, hx, hxe⟩ := List.mem_map.1 ha
  rw [List.mem_filter] at hx
  exact hne x hx.1 hxe

theorem sideInv_transport {α : Type} (mk : α → Nat → Nat → ChannelEventRow)
    (tt : RowType) (hmkt : ∀ (a : α) (n t : Nat), (mk a n t).rtype = tt)
    (hist : List (Timestamped α)) (rows rows2 : List ChannelEventRow)
    (clock clock2 : Nat)
    (htt : ¬ tt = RowType.channel)
    (hiff : ∀ row : ChannelEventRow, ¬ row.rtype = RowType.channel →
      (row ∈ rows2 ↔ row ∈ rows))
    (hck : clock ≤ clock2)
    (hinv : SideInv mk tt hist rows clock) :
    SideInv mk tt hist rows2 clock2 := by
  obtain ⟨h1, h2, h3, h4, h5⟩ := hinv
  refine ⟨?_, ?_, h3, h4, ?_⟩
  · intro h hh
    obtain ⟨n, hid, hm⟩ := h1 h hh
    refine ⟨n, hid, (hiff _ ?_).2 hm⟩
    rw [hmkt]
    exact htt
  · intro row hrow hrt hnot
    have hold : row ∈ rows := (hiff row (by rw [hrt]; exact htt)).1 hrow
    exact h2 row hold hrt hnot
  · intro h hh
    exact lt_of_lt_of_le (h5 h hh) hck

theorem sideInv_upsert {α : Type} (mk : α → Nat → Nat → ChannelEventRow)
    (tt : RowType)
    (hist : List (Timestamped α)) (rows : List ChannelEventRow)
    (ρ : ChannelEventRow) (clock clock2 : Nat)
    (hρt : ¬ ρ.rtype = tt)
    (hfresh : ∀ row ∈ rows, ¬ row.id = ρ.id)
    (hck : clock ≤ clock2)
    (hinv : SideInv mk tt hist rows clock) :
    SideInv mk tt hist (repoUpsert rows ρ) clock2 := by
  obtain ⟨h1, h2, h3, h4, h5⟩ := hinv
  refine ⟨?_, ?_, h3, h4, ?_⟩
  · intro h hh
    obtain ⟨n, hid, hm⟩ := h1 h hh
    exact ⟨n, hid, (mem_repoUpsert _ _ _).2 (Or.inr ⟨hm, hfresh _ hm⟩)⟩
  · intro row hrow hrt hnot
    rcases (mem_repoUpsert _ _ _).1 hrow with hρeq | ⟨hold, _⟩
    · subst hρeq
      exact absurd hrt hρt
    · exact h2 row hold hrt hnot
  · intro h hh
    exact lt_of_lt_of_le (h5 h hh) hck

theorem sideInv_ids_bound {α : Type} (mk : α → Nat → Nat → ChannelEventRow)
    (tt : RowType)
    (hmkid : ∀ (a : α) (n t : Nat), (mk a n t).id = EntryId.uuid n)
    (hist : List (Timestamped α)) (rows : List ChannelEventRow) (clock : Nat)
    (hinv : SideInv mk tt hist rows clock) (bound : Nat)
    (hbound : ∀ row ∈ rows, ∀ n, row.id = EntryId.uuid n → n < bound) :
    ∀ h ∈ hist, ∀ n, h.id = EntryId.uuid n → n < bound := by
  intro h hh n hid
  obtain ⟨m, hid', hm⟩ := hinv.1 h hh
  have hnn : EntryId.uuid m = EntryId.uuid n := hid'.symm.trans hid
  injection hnn with hnn'
  subst hnn'
  exact hbound _ hm m (hmkid _ _ _)

theorem invMeta_id_bound (s : StoreState) (r : RepoState) (hmeta : InvMeta s r) :
    ∀ row ∈ r.rows, ∀ n, row.id = EntryId.uuid n → n < s.nextUuid := by
  obtain ⟨_, _, _, _, _, htyping⟩ := hmeta
  intro row hrow n hid
  obtain ⟨h1, h2, h3⟩ := htyping row hrow
  cases hrt : row.rtype with
  | channel =>
    obtain ⟨u', hrw⟩ := h1 hrt
    have hid' := congrArg (fun z => z.id) hrw
    exact EntryId.noConfusion
      (show EntryId.chan (normaliseChannelId u') = EntryId.uuid n from
        hid'.symm.trans hid)
  | channels =>
    obtain ⟨m, us, hrw, hm⟩ := h2 hrt
    have hid' := congrArg (fun z => z.id) hrw
    have hc : EntryId.uuid m = EntryId.uuid n := hid'.symm.trans hid
    injection hc with hc'
    omega
  | balance =>
    obtain ⟨m, bs, hrw, hm⟩ := h3 hrt
    have hid' := congrArg (fun z => z.id) hrw
    have hc : EntryId.uuid m = EntryId.uuid n := hid'.symm.trans hid
    injection hc with hc'
    omega

theorem invMeta_uuid_fresh (s : StoreState) (r : RepoState) (hmeta : InvMeta s r)
    (m : Nat) (hm : s.nextUuid ≤ m) :
    ∀ row ∈ r.rows, ¬ row.id = EntryId.uuid m := by
  intro row hrow hid
  have := invMeta_id_bound s r hmeta row hrow m hid
  omega

theorem invMeta_uuid_not_channel (s : StoreState) (r : RepoState)
    (hmeta : InvMeta s r) :
    ∀ row ∈ r.rows, ∀ n, row.id = EntryId.uuid n →
      ¬ row.rtype = RowType.channel := by
  obtain ⟨_, _, _, _, _, htyping⟩ := hmeta
  intro row hrow n hid hrt
  obtain ⟨h1, _, _⟩ := htyping row hrow
  obtain ⟨u', hrw⟩ := h1 hrt
  have hid' := congrArg (fun z => z.id) hrw
  exact EntryId.noConfusion
    (show EntryId.chan (normaliseChannelId u') = EntryId.uuid n from
      hid'.symm.trans hid)

theorem sideInv_push {α : Type} (mk : α → Nat → Nat → ChannelEventRow)
    (tt : RowType)
    (hmkt : ∀ (a : α) (n t : Nat), (mk a n t).rtype = tt)
    (hmkid : ∀ (a : α) (n t : Nat), (mk a n t).id = EntryId.uuid n)
    (hmkocc : ∀ (a : α) (n t : Nat), (mk a n t).occurredAt = t)
    (hist : List (Timestamped α)) (rows rows2 : List ChannelEventRow)
    (clock clock2 : Nat) (nu : Nat) (v : α)
    (hck : clock < clock2)
    (hids : (rows.map (fun x => x.id)).Nodup)
    (hocctt : ∀ row ∈ rows, row.rtype = tt → row.occurredAt < clock)
    (hkeep : ∀ row ∈ rows, row.rtype = tt → ¬ row.id = EntryId.uuid nu →
      row ∈ rows2)
    (hback : ∀ row ∈ rows2, row.rtype = tt → row = mk v nu clock ∨ row ∈ rows)
    (hmem : mk v nu clock ∈ rows2)
    (hfreshn : ∀ h ∈ hist, ¬ h.id = EntryId.uuid nu)
    (hinv : SideInv mk tt hist rows clock) :
    SideInv mk tt (trimArray (⟨EntryId.uuid nu, clock, v⟩ :: hist)) rows2
      clock2 := by
  obtain ⟨h1, h2, h3, h4, h5⟩ := hinv
  have hp : ((⟨EntryId.uuid nu, clock, v⟩ : Timestamped α) :: hist).Pairwise
      (fun a b => b.updatedAt < a.updatedAt) :=
    List.pairwise_cons.2 ⟨fun h hh => h5 h hh, h4⟩
  refine ⟨?_, ?_, trimArray_length_le _, trimArray_pairwise _ hp, ?_⟩
  · intro h hh
    have hh' := trimArray_subset _ h hh
    rcases List.mem_cons.1 hh' with heq | hmem2
    · subst heq
      exact ⟨nu, rfl, hmem⟩
    · obtain ⟨n, hid, hm⟩ := h1 h hmem2
      refine ⟨n, hid, hkeep _ hm (hmkt _ _ _) ?_⟩
      intro hc
      apply hfreshn h hmem2
      rw [hid]
      exact (hmkid _ _ _).symm.trans hc
  · intro row hrow hrt hnot
    rcases hback row hrow hrt with hρ | hold
    · exfalso
      apply hnot
      refine List.mem_map.2
        ⟨⟨EntryId.uuid nu, clock, v⟩, trimArray_cons_self_mem _ _, ?_⟩
      show EntryId.uuid nu = row.id
      rw [hρ]
      exact (hmkid _ _ _).symm
    · by_cases hin : row.id ∈ hist.map (fun h => h.id)
      · obtain ⟨h0, hh0, hid0⟩ := List.mem_map.1 hin
        have hid0' : h0.id = row.id := hid0
        obtain ⟨n, hidn, hmn⟩ := h1 h0 hh0
        have hroweq : row = mk h0.payload n h0.updatedAt := by
          apply nodup_map_mem_inj rows (fun z => z.id) hids hold hmn
          show row.id = (mk h0.payload n h0.updatedAt).id
          rw [hmkid, ← hid0', hidn]
        have hrocc : row.occurredAt = h0.updatedAt := by
          rw [hroweq, hmkocc]
        have hh0mem : h0 ∈ ((⟨EntryId.uuid nu, clock, v⟩ : Timestamped α) :: hist) :=
          List.mem_cons_of_mem _ hh0
        have hh0not : h0 ∉ trimArray
            ((⟨EntryId.uuid nu, clock, v⟩ : Timestamped α) :: hist) := by
          intro hc
          exact hnot (List.mem_map.2 ⟨h0, hc, hid0⟩)
        obtain ⟨hlen, hall⟩ := trimArray_dropped _ h0 hp hh0mem hh0not
        refine ⟨hlen, ?_⟩
        intro h hh
        rw [hrocc]
        exact hall h hh
      · obtain ⟨hmax, hallold⟩ := h2 row hold hrt hin
        constructor
        · have hlen : ¬ (((⟨EntryId.uuid nu, clock, v⟩ : Timestamped α)
              :: hist).length ≤ MAX_ENTRIES) := by
            simp only [List.length_cons]
            omega
          rw [trimArray_of_gt _ hlen, List.length_take]
          simp only [List.length_cons]
          omega
        · intro h hh
          have hh' := trimArray_subset _ h hh
          rcases List.mem_cons.1 hh' with heq | hmem2
          · rw [heq]
            show row.occurredAt < clock
            exact hocctt row hold hrt
          · exact hallold h hmem2
  · intro h hh
    have hh' := trimArray_subset _ h hh
    rcases List.mem_cons.1 hh' with heq | hmem2
    · rw [heq]
      show clock < clock2
      exact hck
    · exact lt_trans (h5 h hmem2) hck

/-! ### Invariant preservation: the three public operations -/

theorem inv_preserve_channel (M : Nat) (s : StoreState) (r : RepoState)
    (u : ChannelUpdate) (hinv : Inv M s r)
    (hb : r.rows.length + 1 ≤ M) :
    Inv M (recordChannelUpdate s u).1 (chanUpsertRepo r u s.clock) ∧
    (chanUpsertRepo r u s.clock).rows.length ≤ r.rows.length + 1 := by
  obtain ⟨hcore, hM, hhist, hbal⟩ := hinv
  have hb2 : r.rows.length + 1 ≤ r.maxRows := by rw [hM]; exact hb
  obtain ⟨hc1, hlen1, hmax1, _, _, hiff1, _⟩ :=
    invCore_preserve_channel s r u hcore hb2
  refine ⟨⟨hc1, by rw [hmax1]; exact hM, ?_, ?_⟩, hlen1⟩
  · show SideInv batchRow RowType.channels
      (recordChannelUpdate s u).1.channelUpdateHistory
      (chanUpsertRepo r u s.clock).rows (recordChannelUpdate s u).1.clock
    rw [recordChannelUpdate_channelUpdateHistory, recordChannelUpdate_clock]
    exact sideInv_transport batchRow RowType.channels (fun a n t => rfl)
      s.channelUpdateHistory r.rows _ s.clock (s.clock + 1)
      (by decide) hiff1 (by omega) hhist
  · show SideInv balanceRow RowType.balance
      (recordChannelUpdate s u).1.balanceUpdates
      (chanUpsertRepo r u s.clock).rows (recordChannelUpdate s u).1.clock
    rw [recordChannelUpdate_balanceUpdates, recordChannelUpdate_clock]
    exact sideInv_transport balanceRow RowType.balance (fun a n t => rfl)
      s.balanceUpdates r.rows _ s.clock (s.clock + 1)
      (by decide) hiff1 (by omega) hbal

theorem recordBalanceUpdate_state (s : StoreState) (r : RepoState)
    (bs : List Balance) (hr : s.repo = some r) (hf : r.failing = false)
    (hret : r.retentionMs = 0)
    (hlen : (repoUpsert r.rows (balanceRow bs s.nextUuid s.clock)).length ≤
      r.maxRows) :
    (recordBalanceUpdate s bs).1 =
      { s with
        clock := s.clock + 1
        nextUuid := s.nextUuid + 1
        balanceUpdates :=
          trimArray (⟨.uuid s.nextUuid, s.clock, bs⟩ :: s.balanceUpdates)
        repo := some
          { r with rows := repoUpsert r.rows (balanceRow bs s.nextUuid s.clock) } } := by
  obtain ⟨cu, hh, bb, rep, clk, nu⟩ := s
  simp only at hr
  subst hr
  simp only [recordBalanceUpdate]
  exact persistEvents_one _ r (balanceRow bs nu clk) rfl hf hret hlen

theorem inv_preserve_balance (M : Nat) (s : StoreState) (r : RepoState)
    (bs : List Balance) (hinv : Inv M s r)
    (hb : r.rows.length + 1 ≤ M) :
    Inv M (recordBalanceUpdate s bs).1
      { r with rows := repoUpsert r.rows (balanceRow bs s.nextUuid s.clock) } ∧
    (repoUpsert r.rows (balanceRow bs s.nextUuid s.clock)).length ≤
      r.rows.length + 1 := by
  obtain ⟨⟨hrepo, hmeta, hchan⟩, hM, hhist, hbal⟩ := hinv
  obtain ⟨hfail, hret, hidnd, htsnd, hrowlt, htyping⟩ := hmeta
  obtain ⟨hcorr, habs, hmlen, hmid, hmts, hmlt⟩ := hchan
  have hmeta2 : InvMeta s r := ⟨hfail, hret, hidnd, htsnd, hrowlt, htyping⟩
  have hfresh : ∀ row ∈ r.rows, ¬ row.id = EntryId.uuid s.nextUuid :=
    invMeta_uuid_fresh s r hmeta2 s.nextUuid (Nat.le_refl _)
  have hulen : (repoUpsert r.rows (balanceRow bs s.nextUuid s.clock)).length ≤
      r.maxRows := by
    have := repoUpsert_length_le r.rows (balanceRow bs s.nextUuid s.clock)
    rw [hM]
    omega
  have hstate := recordBalanceUpdate_state s r bs hrepo hfail hret hulen
  rw [hstate]
  refine ⟨⟨⟨rfl, ⟨hfail, hret, ?_, ?_, ?_, ?_⟩, ?_, ?_, hmlen, hmid, hmts, ?_⟩,
    hM, ?_, ?_⟩, repoUpsert_length_le _ _⟩
  · exact repoUpsert_ids_nodup _ _ hidnd
  · exact repoUpsert_ts_nodup _ _ htsnd (fun row h => hrowlt row h)
  · intro row hrow
    rcases (mem_repoUpsert _ _ _).1 hrow with hρ | ⟨hold, _⟩
    · subst hρ
      show s.clock < s.clock + 1
      omega
    · show row.occurredAt < s.clock + 1
      have := hrowlt row hold
      omega
  · intro row hrow
    rcases (mem_repoUpsert _ _ _).1 hrow with hρ | ⟨hold, _⟩
    · subst hρ
      refine ⟨?_, ?_, ?_⟩
      · intro hc
        exact absurd hc (show ¬ RowType.balance = RowType.channel by decide)
      · intro hc
        exact absurd hc (show ¬ RowType.balance = RowType.channels by decide)
      · intro hc
        refine ⟨s.nextUuid, bs, rfl, ?_⟩
        show s.nextUuid < s.nextUuid + 1
        omega
    · obtain ⟨h1, h2, h3⟩ := htyping row hold
      refine ⟨h1, ?_, ?_⟩
      · intro hc
        obtain ⟨n, us, hrw, hn⟩ := h2 hc
        refine ⟨n, us, hrw, ?_⟩
        show n < s.nextUuid + 1
        omega
      · intro hc
        obtain ⟨n, bs2, hrw, hn⟩ := h3 hc
        refine ⟨n, bs2, hrw, ?_⟩
        show n < s.nextUuid + 1
        omega
  · intro e he
    obtain ⟨hrowm, hkey⟩ := hcorr e he
    refine ⟨(mem_repoUpsert _ _ _).2 (Or.inr ⟨hrowm, ?_⟩), hkey⟩
    intro hc
    exact EntryId.noConfusion
      (show EntryId.chan (normaliseChannelId e.payload) =
        EntryId.uuid s.nextUuid from hc)
  · intro row hrow hrt hnot
    rcases (mem_repoUpsert _ _ _).1 hrow with hρ | ⟨hold, _⟩
    · subst hρ
      exact absurd hrt (show ¬ RowType.balance = RowType.channel by decide)
    · exact habs row hold hrt hnot
  · intro e he
    have := hmlt e he
    show e.updatedAt < s.clock + 1
    omega
  · show SideInv batchRow RowType.channels s.channelUpdateHistory
      (repoUpsert r.rows (balanceRow bs s.nextUuid s.clock)) (s.clock + 1)
    exact sideInv_upsert batchRow RowType.channels s.channelUpdateHistory r.rows
      (balanceRow bs s.nextUuid s.clock) s.clock (s.clock + 1)
      (show ¬ RowType.balance = RowType.channels by decide)
      (fun row h => hfresh row h) (by omega) hhist
  · show SideInv balanceRow RowType.balance
      (trimArray (⟨EntryId.uuid s.nextUuid, s.clock, bs⟩ :: s.balanceUpdates))
      (repoUpsert r.rows (balanceRow bs s.nextUuid s.clock)) (s.clock + 1)
    refine sideInv_push balanceRow RowType.balance (fun a n t => rfl)
      (fun a n t => rfl) (fun a n t => rfl) s.balanceUpdates r.rows
      (repoUpsert r.rows (balanceRow bs s.nextUuid s.clock)) s.clock
      (s.clock + 1) s.nextUuid bs (by omega) hidnd ?_ ?_ ?_ ?_ ?_ hbal
    · intro row h _
      exact hrowlt row h
    · intro row h _ hne
      exact (mem_repoUpsert _ _ _).2 (Or.inr ⟨h, hne⟩)
    · intro row hrow _
      rcases (mem_repoUpsert _ _ _).1 hrow with hρ | ⟨hold, _⟩
      · exact Or.inl hρ
      · exact Or.inr hold
    · exact (mem_repoUpsert _ _ _).2 (Or.inl rfl)
    · intro h hh hc
      have := sideInv_ids_bound balanceRow RowType.balance (fun a n t => rfl)
        s.balanceUpdates r.rows s.clock hbal s.nextUuid
        (invMeta_id_bound s r hmeta2) h hh s.nextUuid hc
      omega

theorem inv_preserve_channels (M : Nat) (s : StoreState) (r : RepoState)
    (us : List ChannelUpdate) (hinv : Inv M s r)
    (hb : r.rows.length + (1 + us.length) ≤ M) :
    ∃ r3 : RepoState, Inv M (recordChannelsUpdate s us).1 r3 ∧
      r3.rows.length ≤ r.rows.length + (1 + us.length) := by
  obtain ⟨⟨hrepo, hmeta, hchan⟩, hM, hhist, hbal⟩ := hinv
  obtain ⟨hfail, hret, hidnd, htsnd, hrowlt, htyping⟩ := hmeta
  have hmeta2 : InvMeta s r := ⟨hfail, hret, hidnd, htsnd, hrowlt, htyping⟩
  have hcoremid : InvCore (batchMidState s us) r :=
    invCore_mono s (batchMidState s us) r hrepo rfl (Nat.le_succ s.clock)
      (Nat.le_succ s.nextUuid) ⟨hrepo, hmeta2, hchan⟩
  obtain ⟨r2, hcfan, hlen2, hmax2, hfail2, hret2, hiff2, hstamp2, hck2, hnu2,
    hhist2, hbal2⟩ :=
    invCore_preserve_fanout us (batchMidState s us) r hcoremid
      (by rw [hM]; omega)
  obtain ⟨hrepof, hmetaf, hchanf⟩ := hcfan
  obtain ⟨hfailf, hretf, hidf, htsf, hltf, htypf⟩ := hmetaf
  obtain ⟨hcorrf, habsf, hmlenf, hmidf, hmtsf, hmltf⟩ := hchanf
  have hmidck : s.clock + 1 ≤
      (recordChannelsFanout (batchMidState s us) us).1.clock := hck2
  have hfanuuid : (recordChannelsFanout (batchMidState s us) us).1.nextUuid =
      s.nextUuid + 1 := hnu2
  have hfanhist : (recordChannelsFanout (batchMidState s us) us).1.channelUpdateHistory =
      trimArray (⟨EntryId.uuid s.nextUuid, s.clock, us⟩ :: s.channelUpdateHistory) :=
    hhist2
  have hfanbal : (recordChannelsFanout (batchMidState s us) us).1.balanceUpdates =
      s.balanceUpdates := hbal2
  have hfreshb : ∀ row ∈ r2.rows, ¬ row.id = EntryId.uuid s.nextUuid := by
    intro row hrow hid
    have hnt := invMeta_uuid_not_channel _ r2
      ⟨hfailf, hretf, hidf, htsf, hltf, htypf⟩ row hrow s.nextUuid hid
    have hrold : row ∈ r.rows := (hiff2 row hnt).1 hrow
    have := invMeta_id_bound s r hmeta2 row hrold s.nextUuid hid
    omega
  have htsfresh : ∀ row ∈ r2.rows, ¬ row.occurredAt = s.clock := by
    intro row hrow heq
    rcases hstamp2 row hrow with hold | hge
    · have := hrowlt row hold
      omega
    · have hm2 : s.clock + 1 ≤ row.occurredAt := hge
      omega
  have hulenb : (repoUpsert r2.rows (batchRow us s.nextUuid s.clock)).length ≤
      r2.maxRows := by
    have h1 := repoUpsert_length_le r2.rows (batchRow us s.nextUuid s.clock)
    rw [hmax2, hM]
    omega
  have hfailf2 : r2.failing = false := by rw [hfail2]; exact hfail
  have hretf2 : r2.retentionMs = 0 := by rw [hret2]; exact hret
  have hfinal : (recordChannelsUpdate s us).1 =
      { (recordChannelsFanout (batchMidState s us) us).1 with
        repo := some { r2 with
          rows := repoUpsert r2.rows (batchRow us s.nextUuid s.clock) } } := by
    have h0 : (recordChannelsUpdate s us).1 =
        persistEvents (recordChannelsFanout (batchMidState s us) us).1
          [batchRow us s.nextUuid s.clock] := rfl
    rw [h0]
    exact persistEvents_one _ r2 _ hrepof hfailf2 hretf2 hulenb
  have hhistr2 : SideInv batchRow RowType.channels s.channelUpdateHistory
      r2.rows s.clock :=
    sideInv_transport batchRow RowType.channels (fun a n t => rfl)
      s.channelUpdateHistory r.rows r2.rows s.clock s.clock
      (show ¬ RowType.channels = RowType.channel by decide) hiff2
      (Nat.le_refl _) hhist
  have hbalr2 : SideInv balanceRow RowType.balance s.balanceUpdates
      r2.rows s.clock :=
    sideInv_transport balanceRow RowType.balance (fun a n t => rfl)
      s.balanceUpdates r.rows r2.rows s.clock s.clock
      (show ¬ RowType.balance = RowType.channel by decide) hiff2
      (Nat.le_refl _) hbal
  refine ⟨{ r2 with rows := repoUpsert r2.rows (batchRow us s.nextUuid s.clock) },
    ?_, ?_⟩
  swap
  · show (repoUpsert r2.rows (batchRow us s.nextUuid s.clock)).length ≤
      r.rows.length + (1 + us.length)
    have h1 := repoUpsert_length_le r2.rows (batchRow us s.nextUuid s.clock)
    omega
  rw [hfinal]
  refine ⟨⟨rfl, ⟨hfailf2, hretf2, ?_, ?_, ?_, ?_⟩,
    ?_, ?_, hmlenf, hmidf, hmtsf, hmltf⟩, ?_, ?_, ?_⟩
  · exact repoUpsert_ids_nodup _ _ hidf
  · exact repoUpsert_ts_nodup_ne _ _ htsf (fun row h => htsfresh row h)
  · intro row hrow
    rcases (mem_repoUpsert _ _ _).1 hrow with hρ | ⟨hold, _⟩
    · subst hρ
      show s.clock < (recordChannelsFanout (batchMidState s us) us).1.clock
      omega
    · exact hltf row hold
  · intro row hrow
    rcases (mem_repoUpsert _ _ _).1 hrow with hρ | ⟨hold, _⟩
    · subst hρ
      refine ⟨?_, ?_, ?_⟩
      · intro hc
        exact absurd hc (show ¬ RowType.channels = RowType.channel by decide)
      · intro hc
        refine ⟨s.nextUuid, us, rfl, ?_⟩
        show s.nextUuid <
          (recordChannelsFanout (batchMidState s us) us).1.nextUuid
        rw [hfanuuid]
        omega
      · intro hc
        exact absurd hc (show ¬ RowType.channels = RowType.balance by decide)
    · exact htypf row hold
  · intro e he
    obtain ⟨hrowm, hkey⟩ := hcorrf e he
    refine ⟨(mem_repoUpsert _ _ _).2 (Or.inr ⟨hrowm, ?_⟩), hkey⟩
    intro hc
    exact EntryId.noConfusion
      (show EntryId.chan (normaliseChannelId e.payload) =
        EntryId.uuid s.nextUuid from hc)
  · intro row hrow hrt hnot
    rcases (mem_repoUpsert _ _ _).1 hrow with hρ | ⟨hold, _⟩
    · subst hρ
      exact absurd hrt (show ¬ RowType.channels = RowType.channel by decide)
    · exact habsf row hold hrt hnot
  · show r2.maxRows = M
    rw [hmax2]
    exact hM
  · show SideInv batchRow RowType.channels
      (recordChannelsFanout (batchMidState s us) us).1.channelUpdateHistory
      (repoUpsert r2.rows (batchRow us s.nextUuid s.clock))
      (recordChannelsFanout (batchMidState s us) us).1.clock
    rw [hfanhist]
    refine sideInv_push batchRow RowType.channels (fun a n t => rfl)
      (fun a n t => rfl) (fun a n t => rfl) s.channelUpdateHistory r2.rows
      (repoUpsert r2.rows (batchRow us s.nextUuid s.clock)) s.clock
      (recordChannelsFanout (batchMidState s us) us).1.clock
      s.nextUuid us (by omega) hidf ?_ ?_ ?_ ?_ ?_ hhistr2
    · intro row hrow hrt
      have hnt : ¬ row.rtype = RowType.channel := by
        rw [hrt]
        decide
      have hrold : row ∈ r.rows := (hiff2 row hnt).1 hrow
      exact hrowlt row hrold
    · intro row hrow _ hne
      exact (mem_repoUpsert _ _ _).2 (Or.inr ⟨hrow, hne⟩)
    · intro row hrow _
      rcases (mem_repoUpsert _ _ _).1 hrow with hρ | ⟨hold, _⟩
      · exact Or.inl hρ
      · exact Or.inr hold
    · exact (mem_repoUpsert _ _ _).2 (Or.inl rfl)
    · intro h hh hc
      have := sideInv_ids_bound batchRow RowType.channels (fun a n t => rfl)
        s.channelUpdateHistory r.rows s.clock hhist s.nextUuid
        (invMeta_id_bound s r hmeta2) h hh s.nextUuid hc
      omega
  · show SideInv balanceRow RowType.balance
      (recordChannelsFanout (batchMidState s us) us).1.balanceUpdates
      (repoUpsert r2.rows (batchRow us s.nextUuid s.clock))
      (recordChannelsFanout (batchMidState s us) us).1.clock
    rw [hfanbal]
    exact sideInv_upsert balanceRow RowType.balance s.balanceUpdates r2.rows
      (batchRow us s.nextUuid s.clock) s.clock
      (recordChannelsFanout (batchMidState s us) us).1.clock
      (show ¬ RowType.channels = RowType.balance by decide)
      (fun row h => hfreshb row h) (by omega) hbalr2

theorem inv_preserve_op (M : Nat) (s : StoreState) (r : RepoState)
    (op : StoreOp) (hinv : Inv M s r)
    (hb : r.rows.length + opCost op ≤ M) :
    ∃ r2 : RepoState, Inv M (applyOp s op).1 r2 ∧
      r2.rows.length ≤ r.rows.length + opCost op := by
  cases op with
  | channel u =>
    obtain ⟨h1, h2⟩ := inv_preserve_channel M s r u hinv hb
    exact ⟨_, h1, h2⟩
  | channels us =>
    exact inv_preserve_channels M s r us hinv hb
  | balance bs =>
    obtain ⟨h1, h2⟩ := inv_preserve_balance M s r bs hinv hb
    exact ⟨_, h1, h2⟩

theorem inv_runOps (M : Nat) :
    ∀ (ops : List StoreOp) (s : StoreState) (r : RepoState),
      Inv M s r → r.rows.length + opsCost ops ≤ M →
      ∃ r2 : RepoState, Inv M (runOps s ops) r2 ∧
        r2.rows.length ≤ r.rows.length + opsCost ops
  | [], s, r, hinv, _ => ⟨r, hinv, by simp [opsCost]⟩
  | op :: ops, s, r, hinv, hb => by
    have hcost : opsCost (op :: ops) = opCost op + opsCost ops := by
      simp [opsCost]
    have hb1 : r.rows.length + opCost op ≤ M := by
      rw [hcost] at hb
      omega
    obtain ⟨r1, hinv1, hlen1⟩ := inv_preserve_op M s r op hinv hb1
    have hb2 : r1.rows.length + opsCost ops ≤ M := by
      rw [hcost] at hb
      omega
    obtain ⟨r2, hinv2, hlen2⟩ := inv_runOps M ops (applyOp s op).1 r1 hinv1 hb2
    refine ⟨r2, ?_, ?_⟩
    · rw [runOps_cons]
      exact hinv2
    · rw [hcost]
      omega

theorem inv_empty (M c0 : Nat) :
    Inv M (emptyStore
        (some { rows := [], maxRows := M, retentionMs := 0, failing := false })
        c0)
      { rows := [], maxRows := M, retentionMs := 0, failing := false } := by
  refine ⟨⟨rfl, ⟨rfl, rfl, List.nodup_nil, List.nodup_nil, ?_, ?_⟩,
      ?_, ?_, ?_, List.nodup_nil, List.nodup_nil, ?_⟩, rfl,
    ⟨?_, ?_, ?_, List.Pairwise.nil, ?_⟩,
    ⟨?_, ?_, ?_, List.Pairwise.nil, ?_⟩⟩
  · intro row h
    exact absurd h (List.not_mem_nil _)
  · intro row h
    exact absurd h (List.not_mem_nil _)
  · intro e h
    exact absurd h (List.not_mem_nil _)
  · intro row h
    exact absurd h (List.not_mem_nil _)
  · show (0 : Nat) ≤ MAX_ENTRIES
    decide
  · intro e h
    exact absurd h (List.not_mem_nil _)
  · intro h hh
    exact absurd hh (List.not_mem_nil _)
  · intro row h
    exact absurd h (List.not_mem_nil _)
  · show (0 : Nat) ≤ MAX_ENTRIES
    decide
  · intro h hh
    exact absurd hh (List.not_mem_nil _)
  · intro h hh
    exact absurd hh (List.not_mem_nil _)
  · intro row h
    exact absurd h (List.not_mem_nil _)
  · show (0 : Nat) ≤ MAX_ENTRIES
    decide
  · intro h hh
    exact absurd hh (List.not_mem_nil _)

/-! ### Hydration loop lemmas -/

theorem hydrateList_eq_rec {α : Type} (parse : PersistedPayload → Option α) :
    ∀ (rows : List ChannelEventRow) (acc : List (Timestamped α)),
      List.foldl
        (fun acc row =>
          match parse row.payload with
          | some v => acc ++ [⟨row.id, row.occurredAt, v⟩]
          | none => acc)
        acc rows = acc ++ hydrateListRec parse rows
  | [], acc => by simp [hydrateListRec]
  | row :: rows, acc => by
    simp only [List.foldl_cons, hydrateListRec]
    cases hp : parse row.payload with
    | some v =>
      show List.foldl _
          (acc ++ [(⟨row.id, row.occurredAt, v⟩ : Timestamped α)]) rows =
        acc ++ (⟨row.id, row.occurredAt, v⟩ :: hydrateListRec parse rows)
      rw [hydrateList_eq_rec parse rows
        (acc ++ [(⟨row.id, row.occurredAt, v⟩ : Timestamped α)])]
      simp
    | none =>
      show List.foldl _ acc rows = acc ++ hydrateListRec parse rows
      exact hydrateList_eq_rec parse rows acc

theorem hydrateList_eq {α : Type} (parse : PersistedPayload → Option α)
    (rows : List ChannelEventRow) :
    hydrateList parse rows = hydrateListRec parse rows := by
  have h := hydrateList_eq_rec parse rows []
  rw [List.nil_append] at h
  exact h

theorem hydrateChannels_acc :
    ∀ (rows : List ChannelEventRow) (acc : List (Timestamped ChannelUpdate)),
      ((acc ++ hydrateListRec PersistedPayload.asChannel rows).map
        (fun e => e.id)).Nodup →
      List.foldl
        (fun acc row =>
          match row.payload.asChannel with
          | some u => mapSet acc ⟨row.id, row.occurredAt, u⟩
          | none => acc)
        acc rows = acc ++ hydrateListRec PersistedPayload.asChannel rows
  | [], acc, _ => by simp [hydrateListRec]
  | row :: rows, acc, hnd => by
    simp only [List.foldl_cons, hydrateListRec] at hnd ⊢
    cases hp : row.payload.asChannel with
    | some u =>
      rw [hp] at hnd
      have hnd2 : ((acc ++ (⟨row.id, row.occurredAt, u⟩ ::
          hydrateListRec PersistedPayload.asChannel rows)).map
          (fun e => e.id)).Nodup := hnd
      have hnotin : (⟨row.id, row.occurredAt, u⟩ :
          Timestamped ChannelUpdate).id ∉ acc.map (fun e => e.id) := by
        rw [List.map_append, List.map_cons, List.nodup_append] at hnd2
        intro hmem
        exact hnd2.2.2 hmem (List.mem_cons_self _ _)
      have hnd3 : (((acc ++ [(⟨row.id, row.occurredAt, u⟩ :
          Timestamped ChannelUpdate)]) ++
          hydrateListRec PersistedPayload.asChannel rows).map
          (fun e => e.id)).Nodup := by
        rw [List.append_assoc]
        simpa using hnd2
      show List.foldl _ (mapSet acc ⟨row.id, row.occurredAt, u⟩) rows =
        acc ++ (⟨row.id, row.occurredAt, u⟩ ::
          hydrateListRec PersistedPayload.asChannel rows)
      rw [mapSet_of_not_mem acc _ hnotin]
      rw [hydrateChannels_acc rows
        (acc ++ [(⟨row.id, row.occurredAt, u⟩ : Timestamped ChannelUpdate)]) hnd3]
      simp
    | none =>
      rw [hp] at hnd
      have hnd2 : ((acc ++ hydrateListRec PersistedPayload.asChannel rows).map
          (fun e => e.id)).Nodup := hnd
      show List.foldl _ acc rows =
        acc ++ hydrateListRec PersistedPayload.asChannel rows
      exact hydrateChannels_acc rows acc hnd2

theorem hydrateChannels_eq (rows : List ChannelEventRow)
    (hnd : ((hydrateListRec PersistedPayload.asChannel rows).map
      (fun e => e.id)).Nodup) :
    hydrateChannels rows = hydrateListRec PersistedPayload.asChannel rows := by
  have h := hydrateChannels_acc rows [] (by simpa using hnd)
  rw [List.nil_append] at h
  exact h

theorem hydrateChannels_filter_acc :
    ∀ (rows : List ChannelEventRow) (acc : List (Timestamped ChannelUpdate)),
      List.foldl
        (fun acc row =>
          match row.payload.asChannel with
          | some u => mapSet acc ⟨row.id, row.occurredAt, u⟩
          | none => acc)
        acc (rows.filter (fun row => (row.payload.asChannel).isSome)) =
      List.foldl
        (fun acc row =>
          match row.payload.asChannel with
          | some u => mapSet acc ⟨row.id, row.occurredAt, u⟩
          | none => acc)
        acc rows
  | [], acc => rfl
  | row :: rows, acc => by
    cases hp : row.payload.asChannel with
    | some u =>
      rw [List.filter_cons_of_pos (by simp [hp])]
      simp only [List.foldl_cons]
      rw [hp]
      show List.foldl _ (mapSet acc ⟨row.id, row.occurredAt, u⟩)
          (rows.filter (fun row => (row.payload.asChannel).isSome)) =
        List.foldl _ (mapSet acc ⟨row.id, row.occurredAt, u⟩) rows
      exact hydrateChannels_filter_acc rows _
    | none =>
      rw [List.filter_cons_of_neg (by simp [hp])]
      simp only [List.foldl_cons]
      rw [hp]
      show List.foldl _ acc
          (rows.filter (fun row => (row.payload.asChannel).isSome)) =
        List.foldl _ acc rows
      exact hydrateChannels_filter_acc rows acc

theorem hydrateChannels_filter (rows : List ChannelEventRow) :
    hydrateChannels (rows.filter (fun row => (row.payload.asChannel).isSome)) =
      hydrateChannels rows :=
  hydrateChannels_filter_acc rows []

theorem mem_hydrateListRec {α : Type} (parse : PersistedPayload → Option α) :
    ∀ (rows : List ChannelEventRow) (x : Timestamped α),
      x ∈ hydrateListRec parse rows ↔
        ∃ row ∈ rows, ∃ v, parse row.payload = some v ∧
          x = ⟨row.id, row.occurredAt, v⟩
  | [], x => by simp [hydrateListRec]
  | row :: rows, x => by
    simp only [hydrateListRec]
    cases hp : parse row.payload with
    | some v =>
      show x ∈ ⟨row.id, row.occurredAt, v⟩ :: hydrateListRec parse rows ↔ _
      rw [List.mem_cons, mem_hydrateListRec parse rows x]
      constructor
      · rintro (hx | ⟨row2, h2, v2, h3, h4⟩)
        · exact ⟨row, List.mem_cons_self _ _, v, hp, hx⟩
        · exact ⟨row2, List.mem_cons_of_mem _ h2, v2, h3, h4⟩
      · rintro ⟨row2, h2, v2, h3, h4⟩
        rcases List.mem_cons.1 h2 with heq | hmem
        · subst heq
          rw [hp] at h3
          injection h3 with hv
          subst hv
          exact Or.inl h4
        · exact Or.inr ⟨row2, hmem, v2, h3, h4⟩
    | none =>
      show x ∈ hydrateListRec parse rows ↔ _
      rw [mem_hydrateListRec parse rows x]
      constructor
      · rintro ⟨row2, h2, v2, h3, h4⟩
        exact ⟨row2, List.mem_cons_of_mem _ h2, v2, h3, h4⟩
      · rintro ⟨row2, h2, v2, h3, h4⟩
        rcases List.mem_cons.1 h2 with heq | hmem
        · subst heq
          rw [hp] at h3
          exact Option.noConfusion h3
        · exact ⟨row2, hmem, v2, h3, h4⟩

theorem hydrateListRec_map {α β : Type} (parse : PersistedPayload → Option α)
    (g : Timestamped α → β) (g2 : ChannelEventRow → β)
    (hg : ∀ (row : ChannelEventRow) (v : α),
      g ⟨row.id, row.occurredAt, v⟩ = g2 row) :
    ∀ (rows : List ChannelEventRow),
      (hydrateListRec parse rows).map g =
        (rows.filter (fun row => (parse row.payload).isSome)).map g2
  | [] => by simp [hydrateListRec]
  | row :: rows => by
    simp only [hydrateListRec]
    cases hp : parse row.payload with
    | some v =>
      show ((⟨row.id, row.occurredAt, v⟩ : Timestamped α) ::
        hydrateListRec parse rows).map g = _
      rw [List.filter_cons_of_pos (by simp [hp]), List.map_cons, List.map_cons,
        hydrateListRec_map parse g g2 hg rows, hg]
    | none =>
      show (hydrateListRec parse rows).map g = _
      rw [List.filter_cons_of_neg (by simp [hp])]
      exact hydrateListRec_map parse g g2 hg rows

theorem hydrateListRec_length {α : Type} (parse : PersistedPayload → Option α)
    (rows : List ChannelEventRow) :
    (hydrateListRec parse rows).length =
      (rows.filter (fun row => (parse row.payload).isSome)).length := by
  have h := congrArg List.length
    (hydrateListRec_map parse (fun _ => ()) (fun _ => ()) (fun _ _ => rfl) rows)
  simpa using h

theorem hydrateListRec_filter {α : Type} (parse : PersistedPayload → Option α) :
    ∀ (rows : List ChannelEventRow),
      hydrateListRec parse
        (rows.filter (fun row => (parse row.payload).isSome)) =
      hydrateListRec parse rows
  | [] => rfl
  | row :: rows => by
    cases hp : parse row.payload with
    | some v =>
      rw [List.filter_cons_of_pos (by simp [hp])]
      simp only [hydrateListRec]
      rw [hp]
      show (⟨row.id, row.occurredAt, v⟩ : Timestamped α) ::
          hydrateListRec parse
            (rows.filter (fun row => (parse row.payload).isSome)) =
        ⟨row.id, row.occurredAt, v⟩ :: hydrateListRec parse rows
      rw [hydrateListRec_filter parse rows]
    | none =>
      rw [List.filter_cons_of_neg (by simp [hp])]
      simp only [hydrateListRec]
      rw [hp]
      show hydrateListRec parse
          (rows.filter (fun row => (parse row.payload).isSome)) =
        hydrateListRec parse rows
      exact hydrateListRec_filter parse rows

/-! ### Top-100 fetch characterisation -/

theorem nodup_subset_length_le {α : Type} {l1 l2 : List α}
    (h : l1.Nodup) (hs : l1 ⊆ l2) : l1.length ≤ l2.length :=
  (List.subperm_of_subset h hs).length_le

theorem filter_length_lt {α : Type} (p : α → Bool) (l : List α) (a : α)
    (ha : a ∈ l) (hpa : ¬ p a = true) (hnd : l.Nodup) :
    (l.filter p).length < l.length := by
  have hsub : (a :: l.filter p) ⊆ l := by
    intro x hx
    rcases List.mem_cons.1 hx with h1 | h1
    · subst h1
      exact ha
    · exact List.mem_of_mem_filter h1
  have hnd2 : (a :: l.filter p).Nodup := by
    rw [List.nodup_cons]
    refine ⟨?_, hnd.filter p⟩
    intro hc
    exact hpa (List.of_mem_filter hc)
  have hle := nodup_subset_length_le hnd2 hsub
  simp only [List.length_cons] at hle
  omega

theorem fetch_mem_iff {α : Type} (rows : List ChannelEventRow) (tt : RowType)
    (ents : List (Timestamped α)) (rowOf : Timestamped α → ChannelEventRow)
    (hts : (rows.map (fun x => x.occurredAt)).Nodup)
    (hids : (rows.map (fun x => x.id)).Nodup)
    (hcorr : ∀ e ∈ ents, rowOf e ∈ rows ∧ (rowOf e).id = e.id ∧
      (rowOf e).occurredAt = e.updatedAt ∧ (rowOf e).rtype = tt)
    (habs : ∀ row ∈ rows, row.rtype = tt →
      row.id ∉ ents.map (fun e => e.id) →
      MAX_ENTRIES ≤ ents.length ∧ ∀ e ∈ ents, row.occurredAt < e.updatedAt)
    (hlen : ents.length ≤ MAX_ENTRIES)
    (hentsid : (ents.map (fun e => e.id)).Nodup) :
    ∀ row, row ∈ fetchLatest rows tt MAX_ENTRIES ↔ ∃ e ∈ ents, row = rowOf e := by
  have hfetch : fetchLatest rows tt MAX_ENTRIES =
      (sortRowsDesc (rows.filter (fun x => x.rtype = tt))).take MAX_ENTRIES := rfl
  have hFts : ((rows.filter (fun x => x.rtype = tt)).map
      (fun x => x.occurredAt)).Nodup :=
    hts.sublist ((List.filter_sublist _).map _)
  have hsperm : (sortRowsDesc (rows.filter (fun x => x.rtype = tt))).Perm
      (rows.filter (fun x => x.rtype = tt)) := sortDescBy_perm _ _
  have hsts : ((sortRowsDesc (rows.filter (fun x => x.rtype = tt))).map
      (fun x => x.occurredAt)).Nodup := ((hsperm.map _).nodup_iff).2 hFts
  have hstrict : (sortRowsDesc (rows.filter (fun x => x.rtype = tt))).Pairwise
      (fun a b => b.occurredAt < a.occurredAt) :=
    pairwise_strict_of_nodup _ _ (sortDescBy_pairwise _ _) hsts
  intro row
  rw [hfetch]
  constructor
  · intro hmem
    have hrowS : row ∈ sortRowsDesc (rows.filter (fun x => x.rtype = tt)) :=
      List.mem_of_mem_take hmem
    have hrowF : row ∈ rows.filter (fun x => x.rtype = tt) :=
      hsperm.mem_iff.1 hrowS
    have hrowmem : row ∈ rows := List.mem_of_mem_filter hrowF
    have hrowtt : row.rtype = tt := by
      have := List.of_mem_filter hrowF
      simpa using this
    by_cases hin : row.id ∈ ents.map (fun e => e.id)
    · obtain ⟨e, he, hide⟩ := List.mem_map.1 hin
      refine ⟨e, he, ?_⟩
      obtain ⟨hrm, hrid, _, _⟩ := hcorr e he
      apply nodup_map_mem_inj rows (fun z => z.id) hids hrowmem hrm
      show row.id = (rowOf e).id
      rw [hrid, hide]
    · exfalso
      obtain ⟨hmax, hnewer⟩ := habs row hrowmem hrowtt hin
      have hcount := (mem_take_iff_count (fun x => x.occurredAt)
        (sortRowsDesc (rows.filter (fun x => x.rtype = tt))) hstrict
        MAX_ENTRIES row hrowS).1 hmem
      have hcount2 : ((sortRowsDesc (rows.filter (fun x => x.rtype = tt))).filter
          (fun x => row.occurredAt < x.occurredAt)).length < MAX_ENTRIES :=
        hcount
      have hsubset : (ents.map rowOf) ⊆
          (sortRowsDesc (rows.filter (fun x => x.rtype = tt))).filter
            (fun x => row.occurredAt < x.occurredAt) := by
        intro y hy
        obtain ⟨e, he, hye⟩ := List.mem_map.1 hy
        obtain ⟨hrm, hrid, hrocc, hrtt⟩ := hcorr e he
        subst hye
        rw [List.mem_filter]
        constructor
        · apply hsperm.mem_iff.2
          rw [List.mem_filter]
          exact ⟨hrm, by simp [hrtt]⟩
        · simp only [decide_eq_true_eq]
          rw [hrocc]
          exact hnewer e he
      have hndmap : (ents.map rowOf).Nodup := by
        have hmapids : ((ents.map rowOf).map (fun z => z.id)).Nodup := by
          rw [List.map_map]
          have hmc : ents.map ((fun z => z.id) ∘ rowOf) =
              ents.map (fun e => e.id) :=
            List.map_congr_left (fun e he => (hcorr e he).2.1)
          rw [hmc]
          exact hentsid
        exact List.Nodup.of_map _ hmapids
      have hlen2 := nodup_subset_length_le hndmap hsubset
      rw [List.length_map] at hlen2
      omega
  · rintro ⟨e, he, hre⟩
    subst hre
    obtain ⟨hrm, hrid, hrocc, hrtt⟩ := hcorr e he
    have hrowF : rowOf e ∈ rows.filter (fun x => x.rtype = tt) := by
      rw [List.mem_filter]
      exact ⟨hrm, by simp [hrtt]⟩
    have hrowS : rowOf e ∈ sortRowsDesc (rows.filter (fun x => x.rtype = tt)) :=
      hsperm.mem_iff.2 hrowF
    rw [mem_take_iff_count (fun x => x.occurredAt)
      (sortRowsDesc (rows.filter (fun x => x.rtype = tt))) hstrict
      MAX_ENTRIES _ hrowS]
    show ((sortRowsDesc (rows.filter (fun x => x.rtype = tt))).filter
      (fun x => (rowOf e).occurredAt < x.occurredAt)).length < MAX_ENTRIES
    have hentsnd : ents.Nodup := List.Nodup.of_map _ hentsid
    have hsubset : ((sortRowsDesc (rows.filter (fun x => x.rtype = tt))).filter
        (fun x => (rowOf e).occurredAt < x.occurredAt)) ⊆
        (ents.filter (fun e2 => e.updatedAt < e2.updatedAt)).map rowOf := by
      intro y hy
      rw [List.mem_filter] at hy
      obtain ⟨hyS, hynew⟩ := hy
      simp only [decide_eq_true_eq] at hynew
      rw [hrocc] at hynew
      have hyF := hsperm.mem_iff.1 hyS
      have hym : y ∈ rows := List.mem_of_mem_filter hyF
      have hytt : y.rtype = tt := by
        have := List.of_mem_filter hyF
        simpa using this
      by_cases hin : y.id ∈ ents.map (fun e2 => e2.id)
      · obtain ⟨e2, he2, hide2⟩ := List.mem_map.1 hin
        obtain ⟨hrm2, hrid2, hrocc2, _⟩ := hcorr e2 he2
        have hyeq : y = rowOf e2 := by
          apply nodup_map_mem_inj rows (fun z => z.id) hids hym hrm2
          show y.id = (rowOf e2).id
          rw [hrid2, hide2]
        refine List.mem_map.2 ⟨e2, ?_, hyeq.symm⟩
        rw [List.mem_filter]
        refine ⟨he2, ?_⟩
        simp only [decide_eq_true_eq]
        rw [hyeq, hrocc2] at hynew
        exact hynew
      · obtain ⟨_, hall⟩ := habs y hym hytt hin
        have := hall e he
        omega
    have hndF : ((sortRowsDesc (rows.filter (fun x => x.rtype = tt))).filter
        (fun x => (rowOf e).occurredAt < x.occurredAt)).Nodup := by
      have hnd1 : (sortRowsDesc (rows.filter (fun x => x.rtype = tt))).Nodup :=
        nodup_of_pairwise_strict (fun x => x.occurredAt) _ hstrict
      exact hnd1.filter _
    have hle := nodup_subset_length_le hndF hsubset
    rw [List.length_map] at hle
    have hflt : (ents.filter (fun e2 => e.updatedAt < e2.updatedAt)).length <
        ents.length := by
      refine filter_length_lt _ ents e he ?_ hentsnd
      simp
    omega

/-! ### Snapshot extraction from a wellformed repository -/

theorem side_extract {α : Type} (mk : α → Nat → Nat → ChannelEventRow)
    (tt : RowType) (parse : PersistedPayload → Option α)
    (hmkid : ∀ (a : α) (n t : Nat), (mk a n t).id = EntryId.uuid n)
    (hmkocc : ∀ (a : α) (n t : Nat), (mk a n t).occurredAt = t)
    (hmkt : ∀ (a : α) (n t : Nat), (mk a n t).rtype = tt)
    (hparse : ∀ (a : α) (n t : Nat), parse (mk a n t).payload = some a)
    (hist : List (Timestamped α)) (rows : List ChannelEventRow) (clock : Nat)
    (hts : (rows.map (fun x => x.occurredAt)).Nodup)
    (hids : (rows.map (fun x => x.id)).Nodup)
    (hinv : SideInv mk tt hist rows clock) :
    trimArray (sortByNewest
      (hydrateList parse (fetchLatest rows tt MAX_ENTRIES))) = hist := by
  obtain ⟨h1, h2, h3, h4, h5⟩ := hinv
  have hidh : ∀ h ∈ hist, EntryId.uuid (uuidOf h.id) = h.id := by
    intro h hh
    obtain ⟨n, hid, _⟩ := h1 h hh
    rw [hid]
    rfl
  have hrowOf : ∀ h ∈ hist, mk h.payload (uuidOf h.id) h.updatedAt ∈ rows := by
    intro h hh
    obtain ⟨n, hid, hm⟩ := h1 h hh
    rw [hid]
    exact hm
  have htsnd2 : (hist.map (fun e => e.updatedAt)).Nodup :=
    nodup_map_of_pairwise_strict _ _ h4
  have hhnd : hist.Nodup := nodup_of_pairwise_strict (fun e => e.updatedAt) _ h4
  have hentsid : (hist.map (fun e => e.id)).Nodup := by
    rw [List.nodup_map_iff_inj_on hhnd]
    intro x hx y hy hxy
    obtain ⟨n, hidx, hmx⟩ := h1 x hx
    obtain ⟨m, hidy, hmy⟩ := h1 y hy
    have hnm : n = m := by
      have h0 : EntryId.uuid n = EntryId.uuid m := by
        rw [← hidx, ← hidy, hxy]
      injection h0
    subst hnm
    have hroweq : mk x.payload n x.updatedAt = mk y.payload n y.updatedAt :=
      nodup_map_mem_inj rows (fun z => z.id) hids hmx hmy
        (by show (mk x.payload n x.updatedAt).id = (mk y.payload n y.updatedAt).id
            rw [hmkid, hmkid])
    have hts_eq : x.updatedAt = y.updatedAt :=
      (hmkocc x.payload n x.updatedAt).symm.trans
        ((congrArg (fun z => z.occurredAt) hroweq).trans
          (hmkocc y.payload n y.updatedAt))
    exact nodup_map_mem_inj hist (fun e => e.updatedAt) htsnd2 hx hy hts_eq
  have hcorr2 : ∀ h ∈ hist,
      mk h.payload (uuidOf h.id) h.updatedAt ∈ rows ∧
      (mk h.payload (uuidOf h.id) h.updatedAt).id = h.id ∧
      (mk h.payload (uuidOf h.id) h.updatedAt).occurredAt = h.updatedAt ∧
      (mk h.payload (uuidOf h.id) h.updatedAt).rtype = tt := by
    intro h hh
    refine ⟨hrowOf h hh, ?_, hmkocc _ _ _, hmkt _ _ _⟩
    rw [hmkid]
    exact hidh h hh
  have hiff := fetch_mem_iff rows tt hist
    (fun h => mk h.payload (uuidOf h.id) h.updatedAt) hts hids hcorr2 h2 h3
    hentsid
  rw [hydrateList_eq]
  have hmemh : ∀ x, x ∈ hydrateListRec parse
      (fetchLatest rows tt MAX_ENTRIES) ↔ x ∈ hist := by
    intro x
    rw [mem_hydrateListRec]
    constructor
    · rintro ⟨row, hrow, v, hpv, hx⟩
      obtain ⟨h, hh, hreq⟩ := (hiff row).1 hrow
      subst hreq
      rw [hparse] at hpv
      injection hpv with hv
      subst hv
      have hx2 : x = h := by
        rw [hx, hmkid, hmkocc, hidh h hh]
      rw [hx2]
      exact hh
    · intro hx
      refine ⟨mk x.payload (uuidOf x.id) x.updatedAt, (hiff _).2 ⟨x, hx, rfl⟩,
        x.payload, hparse _ _ _, ?_⟩
      rw [hmkid, hmkocc, hidh x hx]
  have hhydts : ((hydrateListRec parse (fetchLatest rows tt MAX_ENTRIES)).map
      (fun e => e.updatedAt)).Nodup := by
    rw [hydrateListRec_map parse (fun e => e.updatedAt)
      (fun row => row.occurredAt) (fun row v => rfl)]
    have hFts : ((rows.filter (fun x => x.rtype = tt)).map
        (fun x => x.occurredAt)).Nodup :=
      hts.sublist ((List.filter_sublist _).map _)
    have hsts : ((sortRowsDesc (rows.filter (fun x => x.rtype = tt))).map
        (fun x => x.occurredAt)).Nodup :=
      (((sortDescBy_perm _ _).map _).nodup_iff).2 hFts
    have htk : ((fetchLatest rows tt MAX_ENTRIES).map
        (fun x => x.occurredAt)).Nodup :=
      hsts.sublist ((List.take_sublist _ _).map _)
    exact htk.sublist ((List.filter_sublist _).map _)
  have hhydlen : (hydrateListRec parse
      (fetchLatest rows tt MAX_ENTRIES)).length ≤ MAX_ENTRIES := by
    rw [hydrateListRec_length]
    have hf := List.length_filter_le
      (fun row => (parse row.payload).isSome) (fetchLatest rows tt MAX_ENTRIES)
    have htk : (fetchLatest rows tt MAX_ENTRIES).length ≤ MAX_ENTRIES :=
      List.length_take_le _ _
    omega
  have hsortlen : (sortByNewest (hydrateListRec parse
      (fetchLatest rows tt MAX_ENTRIES))).length ≤ MAX_ENTRIES := by
    rw [(sortByNewest_perm _).length_eq]
    exact hhydlen
  rw [trimArray_of_le _ hsortlen]
  have hsortts : ((sortByNewest (hydrateListRec parse
      (fetchLatest rows tt MAX_ENTRIES))).map (fun e => e.updatedAt)).Nodup :=
    (((sortByNewest_perm _).map _).nodup_iff).2 hhydts
  have hsortstrict : (sortByNewest (hydrateListRec parse
      (fetchLatest rows tt MAX_ENTRIES))).Pairwise
      (fun a b => b.updatedAt < a.updatedAt) :=
    pairwise_strict_of_nodup _ _ (sortDescBy_pairwise _ _) hsortts
  refine eq_of_pairwise_strict_mem_iff (fun e => e.updatedAt) _ _
    hsortstrict h4 ?_
  intro x
  rw [mem_sortByNewest]
  exact hmemh x

theorem chan_extract (s : StoreState) (r : RepoState)
    (hmeta : InvMeta s r) (hchan : InvChan s r) :
    sortByNewest (trimMap (hydrateChannels
      (fetchLatest r.rows RowType.channel MAX_ENTRIES))) =
      sortByNewest s.channelUpdates := by
  obtain ⟨hfail, hret, hidnd, htsnd, hrowlt, htyping⟩ := hmeta
  obtain ⟨hcorr, habs, hmlen, hmid, hmts, hmlt⟩ := hchan
  have hcorr2 : ∀ e ∈ s.channelUpdates,
      channelRow e.payload e.updatedAt ∈ r.rows ∧
      (channelRow e.payload e.updatedAt).id = e.id ∧
      (channelRow e.payload e.updatedAt).occurredAt = e.updatedAt ∧
      (channelRow e.payload e.updatedAt).rtype = RowType.channel := by
    intro e he
    obtain ⟨hm, hkey⟩ := hcorr e he
    refine ⟨hm, ?_, rfl, rfl⟩
    rw [hkey]
    rfl
  have hiff := fetch_mem_iff r.rows RowType.channel s.channelUpdates
    (fun e => channelRow e.payload e.updatedAt) htsnd hidnd hcorr2 habs hmlen
    hmid
  have hidF : ((fetchLatest r.rows RowType.channel MAX_ENTRIES).map
      (fun x => x.id)).Nodup := by
    have hFids : ((r.rows.filter (fun x => x.rtype = RowType.channel)).map
        (fun x => x.id)).Nodup := hidnd.sublist ((List.filter_sublist _).map _)
    have hsids : ((sortRowsDesc (r.rows.filter
        (fun x => x.rtype = RowType.channel))).map (fun x => x.id)).Nodup :=
      (((sortDescBy_perm _ _).map _).nodup_iff).2 hFids
    exact hsids.sublist ((List.take_sublist _ _).map _)
  have hhydid : ((hydrateListRec PersistedPayload.asChannel
      (fetchLatest r.rows RowType.channel MAX_ENTRIES)).map
      (fun e => e.id)).Nodup := by
    rw [hydrateListRec_map PersistedPayload.asChannel (fun e => e.id)
      (fun row => row.id) (fun row v => rfl)]
    exact hidF.sublist ((List.filter_sublist _).map _)
  rw [hydrateChannels_eq _ hhydid]
  have hmemh : ∀ x, x ∈ hydrateListRec PersistedPayload.asChannel
      (fetchLatest r.rows RowType.channel MAX_ENTRIES) ↔
      x ∈ s.channelUpdates := by
    intro x
    rw [mem_hydrateListRec]
    constructor
    · rintro ⟨row, hrow, v, hpv, hx⟩
      obtain ⟨e, he, hreq⟩ := (hiff row).1 hrow
      subst hreq
      have hv : e.payload = v := by
        have h0 : some e.payload = some v := hpv
        injection h0
      subst hv
      obtain ⟨hm, hkey⟩ := hcorr e he
      have he2 : e = ⟨(channelRow e.payload e.updatedAt).id,
          (channelRow e.payload e.updatedAt).occurredAt, e.payload⟩ := by
        show e = ⟨EntryId.chan (normaliseChannelId e.payload), e.updatedAt,
          e.payload⟩
        rw [← hkey]
      have hxe : x = e := by rw [hx, ← he2]
      rw [hxe]
      exact he
    · intro hx
      obtain ⟨hm, hkey⟩ := hcorr x hx
      refine ⟨channelRow x.payload x.updatedAt, (hiff _).2 ⟨x, hx, rfl⟩,
        x.payload, rfl, ?_⟩
      show x = ⟨EntryId.chan (normaliseChannelId x.payload), x.updatedAt,
        x.payload⟩
      rw [← hkey]
  have hhydts : ((hydrateListRec PersistedPayload.asChannel
      (fetchLatest r.rows RowType.channel MAX_ENTRIES)).map
      (fun e => e.updatedAt)).Nodup := by
    rw [hydrateListRec_map PersistedPayload.asChannel (fun e => e.updatedAt)
      (fun row => row.occurredAt) (fun row v => rfl)]
    have hFts : ((r.rows.filter (fun x => x.rtype = RowType.channel)).map
        (fun x => x.occurredAt)).Nodup :=
      htsnd.sublist ((List.filter_sublist _).map _)
    have hsts : ((sortRowsDesc (r.rows.filter
        (fun x => x.rtype = RowType.channel))).map
        (fun x => x.occurredAt)).Nodup :=
      (((sortDescBy_perm _ _).map _).nodup_iff).2 hFts
    have htk : ((fetchLatest r.rows RowType.channel MAX_ENTRIES).map
        (fun x => x.occurredAt)).Nodup :=
      hsts.sublist ((List.take_sublist _ _).map _)
    exact htk.sublist ((List.filter_sublist _).map _)
  have hhydlen : (hydrateListRec PersistedPayload.asChannel
      (fetchLatest r.rows RowType.channel MAX_ENTRIES)).length ≤
      MAX_ENTRIES := by
    rw [hydrateListRec_length]
    have hf := List.length_filter_le
      (fun row => (PersistedPayload.asChannel row.payload).isSome)
      (fetchLatest r.rows RowType.channel MAX_ENTRIES)
    have htk : (fetchLatest r.rows RowType.channel MAX_ENTRIES).length ≤
        MAX_ENTRIES := List.length_take_le _ _
    omega
  rw [trimMap_of_le _ hhydlen]
  have hstrict1 : (sortByNewest (hydrateListRec PersistedPayload.asChannel
      (fetchLatest r.rows RowType.channel MAX_ENTRIES))).Pairwise
      (fun a b => b.updatedAt < a.updatedAt) :=
    pairwise_strict_of_nodup _ _ (sortDescBy_pairwise _ _)
      ((((sortByNewest_perm _).map _).nodup_iff).2 hhydts)
  have hstrict2 : (sortByNewest s.channelUpdates).Pairwise
      (fun a b => b.updatedAt < a.updatedAt) :=
    pairwise_strict_of_nodup _ _ (sortDescBy_pairwise _ _)
      ((((sortByNewest_perm _).map _).nodup_iff).2 hmts)
  refine eq_of_pairwise_strict_mem_iff (fun e => e.updatedAt) _ _
    hstrict1 hstrict2 ?_
  intro x
  rw [mem_sortByNewest, mem_sortByNewest]
  exact hmemh x

theorem inv_snapshot_roundtrip (M : Nat) (s : StoreState) (r : RepoState)
    (c1 : Nat) (hinv : Inv M s r) :
    (newStoreFromRepo r c1).snapshot = s.snapshot := by
  obtain ⟨⟨hrepo, hmeta, hchan⟩, hM, hhist, hbal⟩ := hinv
  obtain ⟨hfail, hret, hidnd, htsnd, hrowlt, htyping⟩ := hmeta
  show ({ channels := sortByNewest (newStoreFromRepo r c1).channelUpdates
          batches := (newStoreFromRepo r c1).channelUpdateHistory
          balances := (newStoreFromRepo r c1).balanceUpdates } :
      ChannelEventsSnapshot) =
    { channels := sortByNewest s.channelUpdates
      batches := s.channelUpdateHistory
      balances := s.balanceUpdates }
  have hch : (newStoreFromRepo r c1).channelUpdates =
      trimMap (hydrateChannels
        (fetchLatest r.rows RowType.channel MAX_ENTRIES)) := rfl
  have hbt : (newStoreFromRepo r c1).channelUpdateHistory =
      trimArray (sortByNewest (hydrateList PersistedPayload.asChannels
        (fetchLatest r.rows RowType.channels MAX_ENTRIES))) := rfl
  have hbl : (newStoreFromRepo r c1).balanceUpdates =
      trimArray (sortByNewest (hydrateList PersistedPayload.asBalances
        (fetchLatest r.rows RowType.balance MAX_ENTRIES))) := rfl
  rw [hch, hbt, hbl]
  rw [chan_extract s r ⟨hfail, hret, hidnd, htsnd, hrowlt, htyping⟩ hchan]
  rw [side_extract batchRow RowType.channels PersistedPayload.asChannels
    (fun a n t => rfl) (fun a n t => rfl) (fun a n t => rfl) (fun a n t => rfl)
    s.channelUpdateHistory r.rows s.clock htsnd hidnd hhist]
  rw [side_extract balanceRow RowType.balance PersistedPayload.asBalances
    (fun a n t => rfl) (fun a n t => rfl) (fun a n t => rfl) (fun a n t => rfl)
    s.balanceUpdates r.rows s.clock htsnd hidnd hbal]

/-- C5: hydration round-trip.  For every store state reachable by a sequence
of record operations from a fresh store attached to an empty, writable
repository with age-based retention disabled and the total row cost of the
sequence within `maxRows`, constructing a new `ChannelEventStore` from that
repository and taking a snapshot yields exactly the snapshot taken before
the restart (same live map contents and same newest-first ordering);
moreover, rows whose payload fails to parse are skipped individually —
hydrating from a persisted snapshot equals hydrating from its restriction
to parsable rows — and the count of history entries recovered equals the
count of parsable rows. -/
theorem c5_hydration_round_trip (M c0 c1 : Nat) (ops : List StoreOp)
    (hbudget : opsCost ops ≤ M) :
    (∃ r : RepoState,
      (runOps (emptyStore
        (some { rows := [], maxRows := M, retentionMs := 0, failing := false })
        c0) ops).repo = some r ∧
      (newStoreFromRepo r c1).snapshot =
        (runOps (emptyStore
          (some { rows := [], maxRows := M, retentionMs := 0, failing := false })
          c0) ops).snapshot) ∧
    (∀ (s : StoreState) (ps : PersistedSnapshot),
      hydrateFromPersistence s ps =
        hydrateFromPersistence s
          { channels := ps.channels.filter
              (fun row => (row.payload.asChannel).isSome)
            batches := ps.batches.filter
              (fun row => (row.payload.asChannels).isSome)
            balances := ps.balances.filter
              (fun row => (row.payload.asBalances).isSome) }) ∧
    (∀ ps : PersistedSnapshot,
      (hydrateList PersistedPayload.asChannels ps.batches).length =
        (ps.batches.filter
          (fun row => (row.payload.asChannels).isSome)).length ∧
      (hydrateList PersistedPayload.asBalances ps.balances).length =
        (ps.balances.filter
          (fun row => (row.payload.asBalances).isSome)).length) := by
  refine ⟨?_, ?_, ?_⟩
  · obtain ⟨r2, hinv2, _⟩ := inv_runOps M ops
      (emptyStore
        (some { rows := [], maxRows := M, retentionMs := 0, failing := false })
        c0)
      { rows := [], maxRows := M, retentionMs := 0, failing := false }
      (inv_empty M c0)
      (by show 0 + opsCost ops ≤ M; omega)
    exact ⟨r2, hinv2.1.1, inv_snapshot_roundtrip M _ r2 c1 hinv2⟩
  · intro s ps
    unfold hydrateFromPersistence
    dsimp only
    rw [hydrateChannels_filter ps.channels,
      hydrateList_eq PersistedPayload.asChannels,
      hydrateList_eq PersistedPayload.asChannels,
      hydrateList_eq PersistedPayload.asBalances,
      hydrateList_eq PersistedPayload.asBalances,
      hydrateListRec_filter PersistedPayload.asChannels ps.batches,
      hydrateListRec_filter PersistedPayload.asBalances ps.balances]
  · intro ps
    constructor
    · rw [hydrateList_eq]
      exact hydrateListRec_length PersistedPayload.asChannels ps.batches
    · rw [hydrateList_eq]
      exact hydrateListRec_length PersistedPayload.asBalances ps.balances

theorem c5_hydration_round_trip_witness :
    opsCost [StoreOp.channel chan1Update] ≤ 3 ∧
    ∃ r : RepoState,
      (runOps (emptyStore
        (some { rows := [], maxRows := 3, retentionMs := 0, failing := false })
        0) [StoreOp.channel chan1Update]).repo = some r ∧
      (newStoreFromRepo r 7).snapshot =
        (runOps (emptyStore
          (some { rows := [], maxRows := 3, retentionMs := 0, failing := false })
          0) [StoreOp.channel chan1Update]).snapshot :=
  ⟨by decide, (c5_hydration_round_trip 3 0 7 [StoreOp.channel chan1Update]
    (by decide)).1⟩

end ClearNode
